import Mathlib

/-!
Verification of the signal-generation and simulated-execution engine of the
polymarket-bot repository.

The Python scripts under `scripts/` are embedded shallowly over the rationals:
Python floats become `ℚ`, wall-clock instants become `ℚ` (seconds), and every
draw from the global `random` module is taken from an explicit seed stream
threaded through the functions, so each run is a pure function of its inputs.
A Python exception that the source lets escape a helper (for example the
`ZeroDivisionError` raised by `1 / market_price` when a price is zero) is
modelled by the branch of the embedding that leaves the engine state
unchanged, matching the scan-level `try/except` in each `run` loop that
discards the scan without mutating any state.  Question and slug strings are
represented by the set of keyword substrings they contain, since the sources
only ever test substring membership on them.
-/

/-- Seed stream standing for the seeded global `random` module: the list of
successive values it will produce. -/
def Rng : Type := List ℚ

/-- One draw from the seed stream (`random.random()` or a `random.uniform`
call; for `uniform(a, b)` the listed value is the value returned). -/
def draw : Rng → ℚ × Rng
  | [] => (0, [])
  | x :: xs => (x, xs)

/-- Outcome side of a two-outcome market. -/
inductive Side where
  | yes
  | no
deriving DecidableEq, Repr

/-- The Python builtin `round(x, 2)` on the values arising in these scripts
(none of which sit at a half-cent tie, where float rounding is
half-to-even): the nearest multiple of `1/100`. -/
def round2 (q : ℚ) : ℚ := (round (q * 100) : ℤ) / 100

/-- The Python builtin `round(x, 4)`, as `round2` but at four decimals. -/
def round4 (q : ℚ) : ℚ := (round (q * 10000) : ℤ) / 10000

/-- Substring test used throughout the scripts, e.g.
`any(x in question for x in [...])`: does the keyword set of the text meet
the given keyword list? -/
def hasAny (text : List String) (keywords : List String) : Bool :=
  keywords.any (fun k => text.contains k)

/-- Python `max(iterable, key=f)`: the first element realising the
maximal key (later elements replace the running best only when strictly
greater). -/
def pickMaxBy {α : Type} (key : α → ℚ) : List α → Option α
  | [] => none
  | o :: os =>
    match pickMaxBy key os with
    | none => some o
    | some b => if key b > key o then some b else some o

def kwBitcoin : String := "bitcoin"
def kwBtc : String := "btc"
def kwEthereum : String := "ethereum"
def kwEth : String := "eth"
def kwSolana : String := "solana"
def kwSol : String := "sol"
def kwCrypto : String := "crypto"
def kwUp : String := "up"
def kwAbove : String := "above"
def kwRise : String := "rise"
def kwDown : String := "down"
def kwBelow : String := "below"
def kwFall : String := "fall"
def kwHit : String := "hit"

namespace Overnight

/-! Embedding of `scripts/overnight_simulation.py` (`OvernightSimulator`). -/

/-- Source constant `INITIAL_CAPITAL`. -/
def INITIAL_CAPITAL : ℚ := 100

/-- Source constant `MIN_EDGE`. -/
def MIN_EDGE : ℚ := 5 / 100

/-- Source constant `MIN_CONFIDENCE`. -/
def MIN_CONFIDENCE : ℚ := 65 / 100

/-- Source constant `KELLY_FRACTION`. -/
def KELLY_FRACTION : ℚ := 15 / 100

/-- Source constant `MAX_POSITION_PCT`. -/
def MAX_POSITION_PCT : ℚ := 3 / 100

/-- A raw market record as consumed by `analyze_market`.  `question` and
`slug` are the keyword substrings of the respective texts; `outcomesLen` is
`len` of the outcomes field; an entry `none` in `outcomePrices` is a price
entry on which `float(...)` raises. -/
structure OMarket where
  id : ℕ
  question : List String
  slug : List String
  volume : ℚ
  outcomesLen : ℕ
  outcomePrices : List (Option ℚ)

/-- The keyword list of `analyze_market` line 103. -/
def cryptoKeywords : List String :=
  [kwBitcoin, kwBtc, kwEthereum, kwEth, kwSolana, kwSol, kwCrypto]

/-- Keywords of the upward branch of `analyze_market` line 131. -/
def upKeywords : List String := [kwUp, kwAbove, kwRise]

/-- Keywords of the downward branch of `analyze_market` line 133. -/
def downKeywords : List String := [kwDown, kwBelow, kwFall]

/-- The opportunity dictionary `analyze_market` returns. -/
structure Signal where
  marketId : ℕ
  side : Side
  edge : ℚ
  fairProb : ℚ
  marketPrice : ℚ
  volume : ℚ
  confidence : ℚ
  isCrypto : Bool
deriving Repr

/-- The crypto classification of `analyze_market` lines 103-104. -/
def isCryptoO (m : OMarket) : Bool :=
  hasAny m.question cryptoKeywords || hasAny m.slug cryptoKeywords

/-- The fair-value estimate of `analyze_market` lines 126-141 together with
the seed stream left after it: crypto markets with kline data use the
momentum heuristic and draw nothing; otherwise high-volume markets take the
yes price plus a uniform noise draw and everything else stays at `0.5`. -/
def fairDraw (m : OMarket) (klines : Option ℚ) (yesPrice : ℚ) (r : Rng) :
    ℚ × Rng :=
  match isCryptoO m, klines with
  | true, some momentum =>
    ((if hasAny m.question upKeywords then 1 / 2 + momentum / 50
      else if hasAny m.question downKeywords then 1 / 2 - momentum / 50
      else 1 / 2 + momentum / 100), r)
  | _, _ =>
    if m.volume > 100000 then
      let (u, r2) := draw r
      (yesPrice + u, r2)
    else (1 / 2, r)

/-- Steps at `analyze_market` lines 143-168: clamp the fair value, compute
both edges, pick the larger-magnitude edge but the signed-larger side, and
threshold on `MIN_EDGE`. -/
def signalOf (m : OMarket) (yesPrice noPrice fair0 : ℚ) : Option Signal :=
  let fair := max (1 / 10) (min (9 / 10) fair0)
  let yesEdge := fair - yesPrice
  let noEdge := (1 - fair) - noPrice
  let bestEdge := if |yesEdge| > |noEdge| then yesEdge else noEdge
  let bestSide := if yesEdge > noEdge then Side.yes else Side.no
  if |bestEdge| < MIN_EDGE then none
  else
    some { marketId := m.id, side := bestSide, edge := |bestEdge|,
           fairProb := fair,
           marketPrice := if bestSide = Side.yes then yesPrice else noPrice,
           volume := m.volume,
           confidence := min (9 / 10) (1 / 2 + |bestEdge| + m.volume / 1000000),
           isCrypto := isCryptoO m }

/-- Embeds `OvernightSimulator.analyze_market` (lines 96-168).  `klines` is the
`change_pct` field of the kline fetch (`none` when the fetch failed and the
function received `None`).  The uniform noise draw of line 141 comes from the
seed stream; it is only consumed on the branch that reaches it. -/
def analyzeMarket (m : OMarket) (klines : Option ℚ) (r : Rng) :
    Option Signal × Rng :=
  if m.volume < 10000 ∧ isCryptoO m = false then (none, r)
  else if m.outcomesLen < 2 ∨ m.outcomePrices.length < 2 then (none, r)
  else
    match m.outcomePrices with
    | some yesPrice :: some noPrice :: _ =>
      if yesPrice ≤ 5 / 100 ∨ yesPrice ≥ 95 / 100 then (none, r)
      else
        let (fair0, r1) := fairDraw m klines yesPrice r
        (signalOf m yesPrice noPrice fair0, r1)
    | _ => (none, r)

/-- The trade dictionary appended to `closed_trades` (lines 204-217). -/
structure OTrade where
  marketId : ℕ
  side : Side
  edge : ℚ
  confidence : ℚ
  positionValue : ℚ
  marketPrice : ℚ
  pnl : ℚ
  isWin : Bool
  capitalAfter : ℚ
deriving Repr

/-- The persistent simulator state the claims concern: `self.capital` and
`self.closed_trades`. -/
structure OState where
  capital : ℚ
  trades : List OTrade
deriving Repr

/-- Result of one `execute_trade` call.  `ok = false` records that
`1 / market_price` raised `ZeroDivisionError` (win branch at a zero price):
the state is untouched and the scan aborts. -/
structure OExecRes where
  st : OState
  rng : Rng
  trade : Option OTrade
  ok : Bool

/-- Embeds `OvernightSimulator.execute_trade` (lines 170-220). -/
def executeTrade (s : OState) (sig : Signal) (r : Rng) : OExecRes :=
  if sig.confidence < MIN_CONFIDENCE then ⟨s, r, none, true⟩
  else
    let winProb := if sig.side = Side.yes then sig.fairProb else 1 - sig.fairProb
    let kelly0 := if winProb < 1 then sig.edge * winProb / (1 - winProb) else 0
    let kelly := max (min kelly0 KELLY_FRACTION) (1 / 100)
    let pv0 := s.capital * kelly * MAX_POSITION_PCT
    let pv := max (min pv0 (s.capital * (1 / 10))) 1
    if pv > s.capital * (1 / 2) then ⟨s, r, none, true⟩
    else
      let winChance := 1 / 2 + sig.edge
      let (d, r1) := draw r
      let isWin := d < winChance
      if isWin ∧ sig.marketPrice = 0 then ⟨s, r1, none, false⟩
      else
        let pnl := min (max (if isWin then pv * (1 / sig.marketPrice - 1) else -pv) (-pv)) (pv * 5)
        let t : OTrade :=
          ⟨sig.marketId, sig.side, sig.edge, sig.confidence, pv, sig.marketPrice,
           pnl, isWin, s.capital + pnl⟩
        ⟨⟨s.capital + pnl, s.trades ++ [t]⟩, r1, some t, true⟩

/-- The signal-collection loop of `run` (lines 308-312): analyze each market,
keep the opportunities. -/
def oSignals (kl : Option ℚ) : List OMarket → Rng → List Signal × Rng
  | [], r => ([], r)
  | m :: ms, r =>
    match analyzeMarket m kl r with
    | (some sig, r1) =>
      let (rest, r2) := oSignals kl ms r1
      (sig :: rest, r2)
    | (none, r1) => oSignals kl ms r1

/-- Line 315, the stable descending sort of the signals on the key
product of edge and confidence. -/
def sortSignals (l : List Signal) : List Signal :=
  l.mergeSort (fun a b => decide (b.edge * b.confidence ≤ a.edge * a.confidence))

/-- The execution loop over the top signals (lines 318-324): at most the
first three signals are tried and at most two trades are executed; an
escaped exception aborts the remainder of the scan. -/
def oExecList : OState → Rng → ℕ → List Signal → OState × Rng
  | s, r, _, [] => (s, r)
  | s, r, count, sig :: rest =>
    if 2 ≤ count then (s, r)
    else
      let res := executeTrade s sig r
      if res.ok then
        match res.trade with
        | some _ => oExecList res.st res.rng (count + 1) rest
        | none => oExecList res.st res.rng count rest
      else (res.st, res.rng)

/-- The per-scan inputs fetched from the feeds, plus the wall-clock instant
at the top of the scan. -/
structure OScanIn where
  time : ℚ
  klines : Option ℚ
  markets : List OMarket

/-- One iteration of the scan loop body (lines 301-345); reporting and state
persistence touch no engine state and are omitted. -/
def oScanBody (s : OState) (inp : OScanIn) (r : Rng) : OState × Rng :=
  let (sigs, r1) := oSignals inp.klines inp.markets r
  oExecList s r1 0 ((sortSignals sigs).take 3)

/-- Embeds `OvernightSimulator.run` (lines 283-351): the scan loop, guarded only by
`while datetime.now(timezone.utc) < end_time`. -/
def oRun (endT : ℚ) : OState → Rng → List OScanIn → OState × Rng
  | s, r, [] => (s, r)
  | s, r, inp :: rest =>
    if inp.time < endT then
      let (s1, r1) := oScanBody s inp r
      oRun endT s1 r1 rest
    else (s, r)

end Overnight

namespace Admission

/-! The rate-limiting state machine embedded in `execute_trade` of
`scripts/simple_live_trading.py` (lines 141-154) and
`scripts/crypto_live_trading.py` (lines 251-262).  Both scripts use a 30
second cooldown and `MAX_TRADES_PER_HOUR = 10`; the cap is a parameter here
so the machine can be stated for any configured value. -/

/-- Fields `self.last_trade_time`, `self.hourly_trades` and
`self.last_hour_reset`. -/
structure AdmitState where
  lastTradeTime : Option ℚ
  hourlyTrades : ℕ
  lastHourReset : ℚ
deriving Repr

/-- The gate prefix of `execute_trade`: the cooldown check, then the hourly
window reset (applied even when the cap then rejects), then the hourly-cap
check.  Returns the state after the possible reset together with whether the
trade is admitted. -/
def admitCheck (maxPerHour : ℕ) (minSpacing : ℚ) (a : AdmitState) (now : ℚ) :
    AdmitState × Bool :=
  let cooldownHit :=
    match a.lastTradeTime with
    | some t => decide (now - t < minSpacing)
    | none => false
  if cooldownHit then (a, false)
  else
    let a1 := if now - a.lastHourReset > 3600 then
        { a with hourlyTrades := 0, lastHourReset := now } else a
    if maxPerHour ≤ a1.hourlyTrades then (a1, false) else (a1, true)

/-- The bookkeeping performed once a trade completes:
`self.last_trade_time = now; self.hourly_trades += 1`. -/
def admitAccept (a : AdmitState) (now : ℚ) : AdmitState :=
  { a with lastTradeTime := some now, hourlyTrades := a.hourlyTrades + 1 }

/-- Feeding a sequence of otherwise admissible opportunities, at the given
instants, through the gate; counts how many are admitted. -/
def admitRun (maxPerHour : ℕ) (minSpacing : ℚ) : AdmitState → List ℚ → ℕ
  | _, [] => 0
  | a, t :: ts =>
    match admitCheck maxPerHour minSpacing a t with
    | (a1, true) => admitRun maxPerHour minSpacing (admitAccept a1 t) ts + 1
    | (a1, false) => admitRun maxPerHour minSpacing a1 ts

end Admission

/-- The Kelly position sizing shared by `simple_live_trading.execute_trade`
(lines 156-160) and `crypto_live_trading.execute_trade` (lines 264-268):
`kelly = min(edge*3, 0.15); position = capital*kelly;`
`position = min(position, capital*0.1); position = max(position, 1.0)`. -/
def kellySize (capital edge : ℚ) : ℚ :=
  max (min (capital * min (edge * 3) (15 / 100)) (capital * (1 / 10))) 1

namespace SimpleLive

/-! Embedding of `scripts/simple_live_trading.py` (`SimpleLiveTrader`). -/

/-- Source constant `INITIAL_CAPITAL`. -/
def INITIAL_CAPITAL : ℚ := 100

/-- Source constant `MIN_EDGE`. -/
def MIN_EDGE : ℚ := 3 / 100

/-- Source constant `MAX_TRADES_PER_HOUR`. -/
def MAX_TRADES_PER_HOUR : ℕ := 10

/-- A raw market record as consumed by `find_opportunity`.  `id` is the feed
identifier of the market (present on every record; this script never reads
it).  `outcomePricesRaw = none` models a record whose `outcomePrices` field
fails to json-parse; an entry `none` models a price entry on which
`float(...)` raises.  Both raise inside the per-market `try` and make the
loop `continue` with that record dropped. -/
structure SMarket where
  id : ℕ
  question : List String
  volume : ℚ
  outcomePricesRaw : Option (List (Option ℚ))

/-- The keyword list of `find_opportunity` line 100. -/
def cryptoKeywordsS : List String := [kwBitcoin, kwBtc, kwCrypto, kwEth]

/-- Keywords of the upward branch of `find_opportunity` line 105. -/
def upKeywordsS : List String := [kwUp, kwAbove, kwHit]

/-- The opportunity dictionary built at lines 123-131.  The source stores the
whole market record under the key `market`; its `id` and `question` are kept
here. -/
structure SOpp where
  marketId : ℕ
  question : List String
  side : Side
  edge : ℚ
  fairProb : ℚ
  marketPrice : ℚ
  volume : ℚ
  isCrypto : Bool
deriving Repr

/-- The crypto classification of `find_opportunity` line 100. -/
def isCryptoS (m : SMarket) : Bool := hasAny m.question cryptoKeywordsS

/-- The fair-value estimate of `find_opportunity` lines 102-111 together
with the seed stream left after it: crypto markets use BTC momentum and
draw nothing; other markets take the yes price plus a uniform noise draw. -/
def sFairDraw (m : SMarket) (btcChangePct yesPrice : ℚ) (r : Rng) : ℚ × Rng :=
  if isCryptoS m then
    ((if hasAny m.question upKeywordsS then 1 / 2 + btcChangePct / 100
      else 1 / 2 - btcChangePct / 100), r)
  else
    let (u, r2) := draw r
    (yesPrice + u, r2)

/-- Steps at `find_opportunity` lines 113-131: clamp the fair value, compute
both edges, keep the signed-larger edge and its side, and threshold on
`MIN_EDGE`. -/
def sOppOf (m : SMarket) (yesPrice noPrice fair0 : ℚ) : Option SOpp :=
  let fair := max (15 / 100) (min (85 / 100) fair0)
  let yesEdge := fair - yesPrice
  let noEdge := (1 - fair) - noPrice
  let bestEdge := max yesEdge noEdge
  let bestSide := if yesEdge > noEdge then Side.yes else Side.no
  if bestEdge ≥ MIN_EDGE then
    some ⟨m.id, m.question, bestSide, bestEdge, fair,
          (if bestSide = Side.yes then yesPrice else noPrice),
          m.volume, isCryptoS m⟩
  else none

/-- The per-market body of `find_opportunity` (lines 77-133).  `btcChangePct`
is the change field of the Binance fetch result.  The uniform noise draw of line 111 comes from
the seed stream and is only consumed on the branch that reaches it. -/
def analyzeOne (btcChangePct : ℚ) (m : SMarket) (r : Rng) : Option SOpp × Rng :=
  match m.outcomePricesRaw with
  | none => (none, r)
  | some prices =>
    if prices.length < 2 ∨ m.volume < 10000 then (none, r)
    else
      match prices with
      | some yesPrice :: some noPrice :: _ =>
        if yesPrice ≤ 1 / 10 ∨ yesPrice ≥ 9 / 10 then (none, r)
        else
          let (fair0, r1) := sFairDraw m btcChangePct yesPrice r
          (sOppOf m yesPrice noPrice fair0, r1)
      | _ => (none, r)

/-- The collection loop of `find_opportunity`. -/
def sOpportunities (btcChangePct : ℚ) : List SMarket → Rng → List SOpp × Rng
  | [], r => ([], r)
  | m :: ms, r =>
    match analyzeOne btcChangePct m r with
    | (some o, r1) =>
      let (rest, r2) := sOpportunities btcChangePct ms r1
      (o :: rest, r2)
    | (none, r1) => sOpportunities btcChangePct ms r1

/-- The selection key of line 136: `edge * (1.5 if is_crypto else 1.0)`. -/
def oppKey (o : SOpp) : ℚ := o.edge * (if o.isCrypto then 3 / 2 else 1)

/-- Embeds `find_opportunity` (lines 73-137): collect opportunities, return the
key-maximal one if any. -/
def findOpportunity (btcChangePct : ℚ) (ms : List SMarket) (r : Rng) :
    Option SOpp × Rng :=
  let (opps, r1) := sOpportunities btcChangePct ms r
  (pickMaxBy oppKey opps, r1)

/-- The trade dictionary appended to `self.trades` (lines 176-187): note that
`edge`, `position`, `pnl` and `capital_after` are stored rounded. -/
structure STrade where
  question : List String
  side : Side
  edge : ℚ
  position : ℚ
  pnl : ℚ
  isWin : Bool
  capitalAfter : ℚ
  isCrypto : Bool
deriving Repr

/-- The persistent trader state: `self.capital`, `self.trades` and the
rate-limiting fields. -/
structure SState where
  capital : ℚ
  trades : List STrade
  admState : Admission.AdmitState
deriving Repr

/-- Embeds `SimpleLiveTrader.execute_trade` (lines 139-196).  On the win branch with
a zero market price, the division by the market price raises: the run-loop `except`
catches it, so no trade is recorded and no state field is mutated (the
admission bookkeeping of lines 173-174 sits after the raise). -/
def sExecute (s : SState) (opp : SOpp) (now : ℚ) (r : Rng) :
    SState × Option STrade × Rng :=
  match Admission.admitCheck MAX_TRADES_PER_HOUR 30 s.admState now with
  | (a1, false) => ({ s with admState := a1 }, none, r)
  | (a1, true) =>
    let position := kellySize s.capital opp.edge
    let winProb := 1 / 2 + opp.edge * (8 / 10)
    let (d, r1) := draw r
    let isWin := d < winProb
    if isWin ∧ opp.marketPrice = 0 then ({ s with admState := a1 }, none, r1)
    else
      let pnl := if isWin then min (position * (1 / opp.marketPrice - 1)) (position * 2)
                 else -(position * (7 / 10))
      let t : STrade :=
        ⟨opp.question, opp.side, round4 opp.edge, round2 position, round2 pnl,
         isWin, round2 (s.capital + pnl), opp.isCrypto⟩
      (⟨s.capital + pnl, s.trades ++ [t], Admission.admitAccept a1 now⟩, some t, r1)

/-- The per-scan inputs: the wall-clock instant, the Binance fetch result
(`none` when it failed) as `(price, change_pct)`, and the market batch. -/
structure SScanIn where
  time : ℚ
  btc : Option (ℚ × ℚ)
  markets : List SMarket

/-- One iteration of the scan-loop body (lines 227-236): when both fetches
succeeded (`if btc and markets:`, so a non-empty market list), find the best
opportunity and try to execute it.  The second component reports, for
specification purposes, the id of the market whose trade was executed. -/
def sScanStep (s : SState) (inp : SScanIn) (r : Rng) :
    SState × Option ℕ × Rng :=
  match inp.btc with
  | none => (s, none, r)
  | some btc =>
    if inp.markets.isEmpty then (s, none, r)
    else
      match findOpportunity btc.2 inp.markets r with
      | (none, r1) => (s, none, r1)
      | (some opp, r1) =>
        match sExecute s opp inp.time r1 with
        | (s1, some _, r2) => (s1, some opp.marketId, r2)
        | (s1, none, r2) => (s1, none, r2)

/-- Embeds `SimpleLiveTrader.run` (lines 220-281): the scan loop, guarded only by
`while datetime.now(timezone.utc) < end_time`.  Returns the final state, the
ids of the markets traded (in execution order), and the remaining seed. -/
def sRun (endT : ℚ) : SState → Rng → List SScanIn → SState × List ℕ × Rng
  | s, r, [] => (s, [], r)
  | s, r, inp :: rest =>
    if inp.time < endT then
      match sScanStep s inp r with
      | (s1, oid, r1) =>
        match sRun endT s1 r1 rest with
        | (s2, ids, r2) => (s2, oid.toList ++ ids, r2)
    else (s, [], r)

end SimpleLive

namespace CryptoLive

/-! Embedding of `scripts/crypto_live_trading.py` (`CryptoLiveTrader`). -/

/-- Source constant `MIN_EDGE`. -/
def MIN_EDGE : ℚ := 3 / 100

/-- The `momentum` classification computed by `get_binance_data` (line 84). -/
inductive Momentum where
  | bullish
  | bearish
  | neutral
deriving DecidableEq, Repr

/-- The value object returned by `get_binance_data`. -/
structure BData where
  price : ℚ
  change5m : ℚ
  rsi : ℚ
  momentum : Momentum

/-- A raw market record as consumed by the two edge calculators.  As in the
other scripts, `outcomePricesRaw = none` is a field that fails to json-parse
and an entry `none` is a price on which `float(...)` raises — but in this
script neither calculator catches the exception, so it escapes to the
run-loop `except` and aborts the whole scan. -/
structure CMarket where
  id : ℕ
  question : List String
  volume : ℚ
  outcomePricesRaw : Option (List (Option ℚ))

/-- The edge information dictionaries returned at lines 163-165 and 201-203. -/
structure EdgeInfo where
  side : Side
  edge : ℚ
  fairProb : ℚ
  marketPrice : ℚ
deriving Repr

/-- Embeds `calculate_crypto_edge` (lines 124-167).  The outer `none` is an escaped
Python exception; `some none` is a `return None`. -/
def calcCryptoEdge (m : CMarket) (b : BData) : Option (Option EdgeInfo) :=
  match m.outcomePricesRaw with
  | none => none
  | some prices =>
    if prices.length < 2 then some none
    else
      match prices with
      | some yesPrice :: some noPrice :: _ =>
        if yesPrice ≤ 5 / 100 ∨ yesPrice ≥ 95 / 100 then some none
        else
          let fair0 :=
            match b.momentum with
            | Momentum.bullish => 55 / 100 + b.change5m / 10
            | Momentum.bearish => 45 / 100 + b.change5m / 10
            | Momentum.neutral => 1 / 2
          let fair1 :=
            if b.rsi < 30 then min (fair0 + 1 / 10) (3 / 4)
            else if b.rsi > 70 then max (fair0 - 1 / 10) (1 / 4)
            else fair0
          let fair := max (1 / 5) (min (4 / 5) fair1)
          let yesEdge := fair - yesPrice
          let noEdge := (1 - fair) - noPrice
          if yesEdge > noEdge ∧ yesEdge ≥ MIN_EDGE then
            some (some ⟨Side.yes, yesEdge, fair, yesPrice⟩)
          else if noEdge ≥ MIN_EDGE then
            some (some ⟨Side.no, noEdge, 1 - fair, noPrice⟩)
          else some none
      | _ => none

/-- Embeds `calculate_general_edge` (lines 169-205).  The uniform noise draw of
line 190 comes from the seed stream. -/
def calcGeneralEdge (m : CMarket) (r : Rng) : Option (Option EdgeInfo) × Rng :=
  match m.outcomePricesRaw with
  | none => (none, r)
  | some prices =>
    if prices.length < 2 ∨ m.volume < 10000 then (some none, r)
    else
      match prices with
      | some yesPrice :: some noPrice :: _ =>
        if yesPrice ≤ 1 / 10 ∨ yesPrice ≥ 9 / 10 then (some none, r)
        else
          let (u, r1) := draw r
          let fair := max (1 / 5) (min (4 / 5) (yesPrice + u))
          let yesEdge := fair - yesPrice
          let noEdge := (1 - fair) - noPrice
          let bestEdge := max yesEdge noEdge
          if MIN_EDGE ≤ bestEdge ∧ bestEdge ≤ 15 / 100 then
            ((if yesEdge > noEdge then some (some ⟨Side.yes, yesEdge, fair, yesPrice⟩)
              else some (some ⟨Side.no, noEdge, 1 - fair, noPrice⟩)), r1)
          else (some none, r1)
      | _ => (none, r)

/-- The opportunity dictionaries built in `find_best_opportunity`
(lines 219-224 and 235-240). -/
structure COpp where
  marketId : ℕ
  question : List String
  isCrypto : Bool
  priority : ℚ
  side : Side
  edge : ℚ
  fairProb : ℚ
  marketPrice : ℚ
deriving Repr

/-- The crypto-series half of `find_best_opportunity` (lines 211-224):
markets already in `self.traded_markets` are skipped; an escaped exception
(`none`) aborts the collection. -/
def collectCrypto (b : BData) (traded : List ℕ) :
    List CMarket → Option (List COpp)
  | [] => some []
  | m :: ms =>
    if m.id ∈ traded then collectCrypto b traded ms
    else
      match calcCryptoEdge m b with
      | none => none
      | some none => collectCrypto b traded ms
      | some (some e) =>
        match collectCrypto b traded ms with
        | none => none
        | some rest =>
          some (⟨m.id, m.question, true, 2, e.side, e.edge, e.fairProb,
                 e.marketPrice⟩ :: rest)

/-- The general-market half of `find_best_opportunity` (lines 227-240). -/
def collectGeneral (traded : List ℕ) :
    List CMarket → Rng → Option (List COpp) × Rng
  | [], r => (some [], r)
  | m :: ms, r =>
    if m.id ∈ traded then collectGeneral traded ms r
    else
      match calcGeneralEdge m r with
      | (none, r1) => (none, r1)
      | (some none, r1) => collectGeneral traded ms r1
      | (some (some e), r1) =>
        let isCryptoMention := hasAny m.question [kwBitcoin, kwBtc, kwCrypto, kwEth]
        match collectGeneral traded ms r1 with
        | (none, r2) => (none, r2)
        | (some rest, r2) =>
          (some (⟨m.id, m.question, isCryptoMention,
                  (if isCryptoMention then 3 / 2 else 1), e.side, e.edge,
                  e.fairProb, e.marketPrice⟩ :: rest), r2)

/-- The selection key of line 244: `priority * edge`. -/
def cOppKey (o : COpp) : ℚ := o.priority * o.edge

/-- Embeds `find_best_opportunity` (lines 207-245). -/
def findBest (b : BData) (traded : List ℕ) (cms gms : List CMarket) (r : Rng) :
    Option (Option COpp) × Rng :=
  match collectCrypto b traded cms with
  | none => (none, r)
  | some cos =>
    match collectGeneral traded gms r with
    | (none, r1) => (none, r1)
    | (some gos, r1) => (some (pickMaxBy cOppKey (cos ++ gos)), r1)

/-- The trade dictionary appended to `self.trades` (lines 285-300); as in
`simple_live_trading`, the numeric fields are stored rounded. -/
structure CTrade where
  question : List String
  side : Side
  edge : ℚ
  position : ℚ
  pnl : ℚ
  isWin : Bool
  capitalAfter : ℚ
  isCrypto : Bool
deriving Repr

/-- The persistent trader state: `self.capital`, `self.trades`,
`self.traded_markets` and the rate-limiting fields. -/
structure CState where
  capital : ℚ
  trades : List CTrade
  tradedMarkets : List ℕ
  admState : Admission.AdmitState

/-- Embeds `CryptoLiveTrader.execute_trade` (lines 247-309).  The sizing and
settlement mirror `simple_live_trading`; on success the market id is added
to `self.traded_markets` (line 283). -/
def cExecute (s : CState) (opp : COpp) (now : ℚ) (r : Rng) :
    CState × Option CTrade × Rng :=
  match Admission.admitCheck 10 30 s.admState now with
  | (a1, false) => ({ s with admState := a1 }, none, r)
  | (a1, true) =>
    let position := kellySize s.capital opp.edge
    let winProb := 1 / 2 + opp.edge * (8 / 10)
    let (d, r1) := draw r
    let isWin := d < winProb
    if isWin ∧ opp.marketPrice = 0 then ({ s with admState := a1 }, none, r1)
    else
      let pnl := if isWin then min (position * (1 / opp.marketPrice - 1)) (position * 2)
                 else -(position * (7 / 10))
      let t : CTrade :=
        ⟨opp.question, opp.side, round4 opp.edge, round2 position, round2 pnl,
         isWin, round2 (s.capital + pnl), opp.isCrypto⟩
      (⟨s.capital + pnl, s.trades ++ [t], opp.marketId :: s.tradedMarkets,
        Admission.admitAccept a1 now⟩, some t, r1)

/-- The per-scan inputs: the wall-clock instant, the Binance fetch result
(`none` when it failed) and the two market batches. -/
structure CScanIn where
  time : ℚ
  bdata : Option BData
  cryptoMarkets : List CMarket
  generalMarkets : List CMarket

/-- One iteration of the scan-loop body (lines 341-350).  An exception that
escapes `find_best_opportunity` is caught by the loop `except`: the scan
does nothing.  The second component reports, for specification purposes, the
id of the market whose trade was executed. -/
def cScanStep (s : CState) (inp : CScanIn) (r : Rng) :
    CState × Option ℕ × Rng :=
  match inp.bdata with
  | none => (s, none, r)
  | some b =>
    match findBest b s.tradedMarkets inp.cryptoMarkets inp.generalMarkets r with
    | (none, r1) => (s, none, r1)
    | (some none, r1) => (s, none, r1)
    | (some (some opp), r1) =>
      match cExecute s opp inp.time r1 with
      | (s1, some _, r2) => (s1, some opp.marketId, r2)
      | (s1, none, r2) => (s1, none, r2)

/-- Embeds `CryptoLiveTrader.run` (lines 335-379): the scan loop, guarded only by
the run-duration deadline.  Returns the final state, the ids of the markets
traded (in execution order), and the remaining seed. -/
def cRun (endT : ℚ) : CState → Rng → List CScanIn → CState × List ℕ × Rng
  | s, r, [] => (s, [], r)
  | s, r, inp :: rest =>
    if inp.time < endT then
      match cScanStep s inp r with
      | (s1, oid, r1) =>
        match cRun endT s1 r1 rest with
        | (s2, ids, r2) => (s2, oid.toList ++ ids, r2)
    else (s, [], r)

end CryptoLive

namespace PaperAPI

/-! Embedding of `scripts/paper_trading_real_api.py` (`PaperTradingRealAPI`):
the position sizer of `execute_paper_trade` and the scan-loop guard of
`run`, which are what the claims about this script concern. -/

/-- Source constant `MIN_EDGE`. -/
def MIN_EDGE : ℚ := 3 / 100

/-- The Kelly sizing of `execute_paper_trade` (lines 189-192):
`kelly = min(edge*2.5, 0.12); position = capital*kelly;`
`position = max(5.0, min(position, capital*0.15))`. -/
def position (capital edge : ℚ) : ℚ :=
  max 5 (min (capital * min (edge * (5 / 2)) (12 / 100)) (capital * (15 / 100)))

/-- The insufficient-funds gate of line 194:
`if position > self.capital: return None`. -/
def sizedPosition (capital edge : ℚ) : Option ℚ :=
  if position capital edge > capital then none else some (position capital edge)

/-- The state the loop guard of `run` consults. -/
structure PState where
  capital : ℚ
  tradeCount : ℕ

/-- The scan loop of `run` (lines 305-328), guarded by
`while datetime.now(timezone.utc) < end_time and self.capital > 10`.  The
loop body (fetch, select, execute, report, persist) is abstracted as `body`,
since only the guard decides continuation; the theorems about this loop
quantify over every body. -/
def pLoop (endT : ℚ) (body : PState → ℚ → PState) : PState → List ℚ → PState
  | s, [] => s
  | s, t :: ts =>
    if t < endT ∧ s.capital > 10 then pLoop endT body (body s t) ts else s

end PaperAPI

namespace Admission

/-- Within a window (`now - lastHourReset` never exceeding 3600) and with
arrivals spaced at least `minSp` apart, the gate admits exactly
`min (number of arrivals) (cap - trades already in the window)`. -/
theorem admitRun_window (N : ℕ) (minSp w : ℚ) :
    ∀ (ts : List ℚ) (c : ℕ) (lt : Option ℚ),
      ts.Pairwise (fun a b => a + minSp ≤ b) →
      (∀ t ∈ ts, t ≤ w + 3600) →
      (∀ t0, lt = some t0 → ∀ t ∈ ts, t0 + minSp ≤ t) →
      admitRun N minSp ⟨lt, c, w⟩ ts = min ts.length (N - c) := by
  intro ts
  induction ts with
  | nil => intro c lt _ _ _; simp [admitRun]
  | cons t ts ih =>
    intro c lt hpair hwin hlt
    rw [List.pairwise_cons] at hpair
    have hreset : ¬ (t - w > 3600) := by
      have := hwin t (by simp)
      linarith
    have hchk : admitCheck N minSp ⟨lt, c, w⟩ t =
        (⟨lt, c, w⟩, if N ≤ c then false else true) := by
      cases lt with
      | none =>
        simp only [admitCheck, hreset]
        by_cases hNC : N ≤ c <;> simp [hNC]
      | some t0 =>
        have h30 := hlt t0 rfl t (by simp)
        have hns : ¬ (t - t0 < minSp) := by linarith
        simp only [admitCheck, hns, hreset, decide_eq_true_eq]
        by_cases hNC : N ≤ c <;> simp [hNC]
    by_cases hcap : N ≤ c
    · rw [admitRun, hchk]
      simp only [if_pos hcap]
      have hr2 := ih c lt hpair.2 (fun x hx => hwin x (by simp [hx]))
        (fun t0 h0 x hx => hlt t0 h0 x (by simp [hx]))
      simp only [hr2, List.length_cons]
      omega
    · rw [admitRun, hchk]
      simp only [if_neg hcap]
      have hrec := ih (c + 1) (some t) hpair.2
        (fun x hx => hwin x (by simp [hx]))
        (by intro t0 h0 x hx
            injection h0 with h0
            subst h0
            exact hpair.1 x hx)
      simp only [admitAccept, hrec, List.length_cons]
      omega

end Admission

/-- C3: with `maxTradesPerHour = N`, a burst of `N + 5` otherwise admissible
opportunities (spaced past the 30-second cooldown) inside a single hourly
window is admitted exactly `N` times; and the window fields are reset only
when at least an hour has elapsed since the window start. -/
theorem c3_hourly_admission_cap :
    (∀ (N : ℕ) (w : ℚ) (ts : List ℚ), ts.length = N + 5 →
      ts.Pairwise (fun a b => a + 30 ≤ b) →
      (∀ t ∈ ts, w ≤ t ∧ t ≤ w + 3600) →
      Admission.admitRun N 30 ⟨none, 0, w⟩ ts = N) ∧
    (∀ (N : ℕ) (sp : ℚ) (a : Admission.AdmitState) (now : ℚ),
      (Admission.admitCheck N sp a now).1.lastHourReset ≠ a.lastHourReset →
      now - a.lastHourReset ≥ 3600) := by
  constructor
  · intro N w ts hlen hpair hwin
    rw [Admission.admitRun_window N 30 w ts 0 none hpair
      (fun t ht => (hwin t ht).2) (by intro t0 h0; cases h0)]
    rw [hlen]
    omega
  · intro N sp a now hch
    by_cases hc : (match a.lastTradeTime with
        | some t => decide (now - t < sp)
        | none => false) = true
    · exfalso
      apply hch
      simp [Admission.admitCheck, hc]
    · rw [Bool.not_eq_true] at hc
      by_cases hr : now - a.lastHourReset > 3600
      · linarith
      · exfalso
        apply hch
        simp [Admission.admitCheck, hc, hr]
        split <;> rfl

/-- Closed instance of the C3 theorem: cap 2, seven arrivals in the first
hour, exactly two admitted. -/
theorem c3_witness :
    Admission.admitRun 2 30 ⟨none, 0, 0⟩ [0, 30, 60, 90, 120, 150, 180] = 2 := by
  apply c3_hourly_admission_cap.1 2 0
  · rfl
  · norm_num [List.pairwise_cons]
  · intro t ht
    fin_cases ht <;> norm_num

/-- The rounding of `round2` is off by at most half a cent. -/
theorem round2_err (q : ℚ) : |round2 q - q| ≤ 1 / 200 := by
  have h := abs_sub_round (q * 100)
  rw [abs_sub_comm] at h
  have : round2 q - q = ((round (q * 100) : ℚ) - q * 100) / 100 := by
    unfold round2
    ring
  rw [this, abs_div]
  rw [abs_of_pos (by norm_num : (0:ℚ) < 100)]
  linarith

/-- Function `pickMaxBy` returns an element of its argument. -/
theorem pickMaxBy_mem {α : Type} (key : α → ℚ) :
    ∀ (l : List α) (x : α), pickMaxBy key l = some x → x ∈ l := by
  intro l
  induction l with
  | nil => intro x h; cases h
  | cons o os ih =>
    intro x h
    rw [pickMaxBy] at h
    rcases ho : pickMaxBy key os with _ | b
    · rw [ho] at h
      dsimp only at h
      injection h with h
      simp [h]
    · rw [ho] at h
      dsimp only at h
      by_cases hk : key b > key o
      · rw [if_pos hk] at h
        injection h with h
        exact List.mem_cons_of_mem o (h ▸ ih b ho)
      · rw [if_neg hk] at h
        injection h with h
        simp [h]

namespace Overnight

/-- The conservation chain of the recorded history: each trade stores
`capitalAfter` equal to the previous `capitalAfter` (the initial capital for
the first trade) plus its own `pnl`. -/
def ledgerChain (c : ℚ) : List OTrade → Prop
  | [] => True
  | t :: rest => t.capitalAfter = c + t.pnl ∧ ledgerChain t.capitalAfter rest

/-- The `capitalAfter` of the last recorded trade, or the initial capital
when the history is empty. -/
def lastCap (c : ℚ) : List OTrade → ℚ
  | [] => c
  | t :: rest => lastCap t.capitalAfter rest

/-- Appending a conserving trade preserves the chain. -/
theorem ledgerChain_append (l : List OTrade) :
    ∀ (c : ℚ) (t : OTrade), ledgerChain c l →
      t.capitalAfter = lastCap c l + t.pnl →
      ledgerChain c (l ++ [t]) ∧ lastCap c (l ++ [t]) = t.capitalAfter := by
  induction l with
  | nil =>
    intro c t _ ht
    exact ⟨⟨by simpa [lastCap] using ht, trivial⟩, rfl⟩
  | cons u rest ih =>
    intro c t hchain ht
    obtain ⟨hu, hrest⟩ := hchain
    have := ih u.capitalAfter t hrest (by simpa [lastCap] using ht)
    exact ⟨⟨hu, this.1⟩, this.2⟩

/-- The chain, read off at an arbitrary index, is the conservation property
of the claim. -/
theorem ledgerChain_get :
    ∀ (l : List OTrade) (c : ℚ), ledgerChain c l →
      ∀ (n : ℕ) (h : n < l.length) (h2 : n - 1 < l.length),
        (l.get ⟨n, h⟩).capitalAfter =
          (if n = 0 then c else (l.get ⟨n - 1, h2⟩).capitalAfter) +
            (l.get ⟨n, h⟩).pnl := by
  intro l
  induction l with
  | nil => intro c _ n h; simp at h
  | cons t rest ih =>
    intro c hchain n h h2
    obtain ⟨ht, hrest⟩ := hchain
    match n with
    | 0 => simpa using ht
    | 1 =>
      have h1 : 0 < rest.length := by
        simp only [List.length_cons] at h
        omega
      simpa using ih t.capitalAfter hrest 0 h1 h1
    | (m + 2) =>
      have hm : m + 1 < rest.length := by
        simp only [List.length_cons] at h
        omega
      have hm2 : m + 1 - 1 < rest.length := by omega
      have := ih t.capitalAfter hrest (m + 1) hm hm2
      simpa using this

/-- The ledger invariant: the history is a conservation chain and the
engine capital equals the last recorded capital. -/
def oInv (c0 : ℚ) (s : OState) : Prop :=
  ledgerChain c0 s.trades ∧ s.capital = lastCap c0 s.trades

/-- Everything `execute_trade` can do to the state: leave it untouched, or
append one trade `t` and add exactly `t.pnl` to the capital, with the
recorded `capitalAfter` equal to the new capital, a position of at least the
one-dollar floor and at most half the capital, and a loss bounded by the
position. -/
theorem executeTrade_spec (s : OState) (sig : Signal) (r : Rng) :
    ((executeTrade s sig r).st = s ∧ (executeTrade s sig r).trade = none) ∨
    (∃ t : OTrade,
      (executeTrade s sig r).trade = some t ∧
      (executeTrade s sig r).st.trades = s.trades ++ [t] ∧
      (executeTrade s sig r).st.capital = s.capital + t.pnl ∧
      t.capitalAfter = s.capital + t.pnl ∧
      1 ≤ t.positionValue ∧
      t.positionValue ≤ s.capital * (1 / 2) ∧
      -t.positionValue ≤ t.pnl ∧
      t.marketId = sig.marketId) := by
  unfold executeTrade
  by_cases h1 : sig.confidence < MIN_CONFIDENCE
  · rw [if_pos h1]
    exact Or.inl ⟨rfl, rfl⟩
  · rw [if_neg h1]
    simp only
    set kelly0 := if (if sig.side = Side.yes then sig.fairProb else 1 - sig.fairProb) < 1
      then sig.edge * (if sig.side = Side.yes then sig.fairProb else 1 - sig.fairProb) /
        (1 - (if sig.side = Side.yes then sig.fairProb else 1 - sig.fairProb)) else 0
      with hk0
    set pv := max (min (s.capital * (max (min kelly0 KELLY_FRACTION) (1 / 100)) *
      MAX_POSITION_PCT) (s.capital * (1 / 10))) 1 with hpv
    by_cases h2 : pv > s.capital * (1 / 2)
    · rw [if_pos h2]
      exact Or.inl ⟨rfl, rfl⟩
    · rw [if_neg h2]
      rcases hd : draw r with ⟨d, r1⟩
      simp only
      by_cases h3 : d < 1 / 2 + sig.edge ∧ sig.marketPrice = 0
      · rw [if_pos h3]
        exact Or.inl ⟨rfl, rfl⟩
      · rw [if_neg h3]
        right
        refine ⟨_, rfl, rfl, rfl, rfl, ?_, ?_, ?_, rfl⟩
        · exact le_max_right _ 1
        · exact le_of_not_gt h2
        · simp only
          have hpv1 : (1:ℚ) ≤ pv := le_max_right _ 1
          have hlow : -pv ≤ max (if d < 1 / 2 + sig.edge then
              pv * (1 / sig.marketPrice - 1) else -pv) (-pv) := le_max_right _ _
          have hhigh : -pv ≤ pv * 5 := by nlinarith
          exact le_min hlow hhigh

/-- Any state predicate preserved by `execute_trade` is preserved by the
per-scan execution loop. -/
theorem oExecList_pres (P : OState → Prop)
    (hP : ∀ s sig r, P s → P (executeTrade s sig r).st) :
    ∀ (sigs : List Signal) (s : OState) (r : Rng) (k : ℕ),
      P s → P (oExecList s r k sigs).1 := by
  intro sigs
  induction sigs with
  | nil => intro s r k h; exact h
  | cons sig rest ih =>
    intro s r k h
    rw [oExecList]
    by_cases hk : 2 ≤ k
    · rw [if_pos hk]; exact h
    · rw [if_neg hk]
      have hstep := hP s sig r h
      rcases hok : (executeTrade s sig r).ok
      · simp only [hok, Bool.false_eq_true, if_false]
        exact hstep
      · simp only [hok, if_true]
        rcases ht : (executeTrade s sig r).trade with _ | t
        · simp only [ht]
          exact ih _ _ _ hstep
        · simp only [ht]
          exact ih _ _ _ hstep

/-- Any state predicate preserved by `execute_trade` is preserved by a scan. -/
theorem oScanBody_pres (P : OState → Prop)
    (hP : ∀ s sig r, P s → P (executeTrade s sig r).st) :
    ∀ (s : OState) (inp : OScanIn) (r : Rng), P s → P (oScanBody s inp r).1 := by
  intro s inp r h
  rw [oScanBody]
  rcases oSignals inp.klines inp.markets r with ⟨sigs, r1⟩
  exact oExecList_pres P hP _ _ _ _ h

/-- Any state predicate preserved by `execute_trade` is preserved by the
whole run. -/
theorem oRun_pres (P : OState → Prop)
    (hP : ∀ s sig r, P s → P (executeTrade s sig r).st) :
    ∀ (endT : ℚ) (scans : List OScanIn) (s : OState) (r : Rng),
      P s → P (oRun endT s r scans).1 := by
  intro endT scans
  induction scans with
  | nil => intro s r h; exact h
  | cons inp rest ih =>
    intro s r h
    rw [oRun]
    by_cases ht : inp.time < endT
    · rw [if_pos ht]
      rcases hb : oScanBody s inp r with ⟨s1, r1⟩
      have := oScanBody_pres P hP s inp r h
      rw [hb] at this
      exact ih s1 r1 this
    · rw [if_neg ht]; exact h

/-- Step `execute_trade` preserves the ledger invariant. -/
theorem executeTrade_oInv (c0 : ℚ) (s : OState) (sig : Signal) (r : Rng) :
    oInv c0 s → oInv c0 (executeTrade s sig r).st := by
  intro h
  rcases executeTrade_spec s sig r with ⟨h1, _⟩ | ⟨t, _, htr, hcap, hca, _⟩
  · rw [h1]; exact h
  · have happ := ledgerChain_append s.trades c0 t h.1 (by rw [hca, h.2])
    constructor
    · rw [htr]; exact happ.1
    · rw [htr, hcap, happ.2, hca]

/-- Positivity invariant of the overnight engine: the capital is positive
and every recorded trade closed at positive capital. -/
def posInv (s : OState) : Prop :=
  0 < s.capital ∧ ∀ t ∈ s.trades, 0 < t.capitalAfter

/-- Step `execute_trade` preserves positivity: an executed position is at most
half the capital and the loss cannot exceed the position. -/
theorem executeTrade_posInv (s : OState) (sig : Signal) (r : Rng) :
    posInv s → posInv (executeTrade s sig r).st := by
  intro h
  rcases executeTrade_spec s sig r with ⟨h1, _⟩ | ⟨t, _, htr, hcap, hca, _, hpv, hpnl, _⟩
  · rw [h1]; exact h
  · have hcap2 : 0 < s.capital + t.pnl := by nlinarith [h.1]
    constructor
    · rw [hcap]; exact hcap2
    · rw [htr]
      intro u hu
      rcases List.mem_append.1 hu with hu | hu
      · exact h.2 u hu
      · have : u = t := by simpa using hu
        rw [this, hca]
        exact hcap2

/-- When the capital has fallen under two dollars, the one-dollar minimum
position always fails the half-capital safety check: `execute_trade`
executes nothing and leaves the state untouched. -/
theorem executeTrade_floor (s : OState) (sig : Signal) (r : Rng)
    (h : s.capital < 2) :
    (executeTrade s sig r).st = s ∧ (executeTrade s sig r).trade = none := by
  unfold executeTrade
  by_cases h1 : sig.confidence < MIN_CONFIDENCE
  · rw [if_pos h1]; exact ⟨rfl, rfl⟩
  · rw [if_neg h1]
    simp only
    set kelly0 := if (if sig.side = Side.yes then sig.fairProb else 1 - sig.fairProb) < 1
      then sig.edge * (if sig.side = Side.yes then sig.fairProb else 1 - sig.fairProb) /
        (1 - (if sig.side = Side.yes then sig.fairProb else 1 - sig.fairProb)) else 0
      with hk0
    set pv := max (min (s.capital * (max (min kelly0 KELLY_FRACTION) (1 / 100)) *
      MAX_POSITION_PCT) (s.capital * (1 / 10))) 1 with hpv
    have h2 : pv > s.capital * (1 / 2) := by
      have : (1:ℚ) ≤ pv := le_max_right _ 1
      linarith
    rw [if_pos h2]
    exact ⟨rfl, rfl⟩

end Overnight

/-- Rounding almost commutes with addition: the defect is at most three
half-cents. -/
theorem round2_add_err (a b : ℚ) :
    |round2 (a + b) - (round2 a + round2 b)| ≤ 3 / 200 := by
  have e1 := round2_err (a + b)
  have e2 := round2_err a
  have e3 := round2_err b
  rw [abs_le] at e1 e2 e3 ⊢
  constructor <;> linarith [e1.1, e1.2, e2.1, e2.2, e3.1, e3.2]

namespace SimpleLive

/-- The relation between the initial capital, the recorded rows and the
engine capital: each row stores the rounded true pnl and the rounded true
running capital, while the engine capital is the exact running capital. -/
def sChainCap (c : ℚ) : List STrade → ℚ → Prop
  | [], cap => cap = c
  | t :: rest, cap =>
    ∃ p, t.pnl = round2 p ∧ t.capitalAfter = round2 (c + p) ∧
      sChainCap (c + p) rest cap

/-- Appending a trade with true pnl `p` extends the chain. -/
theorem sChainCap_append :
    ∀ (l : List STrade) (c cap p : ℚ) (t : STrade),
      sChainCap c l cap → t.pnl = round2 p →
      t.capitalAfter = round2 (cap + p) →
      sChainCap c (l ++ [t]) (cap + p) := by
  intro l
  induction l with
  | nil =>
    intro c cap p t h hp hc
    rw [show cap = c from h] at hc ⊢
    exact ⟨p, hp, hc, rfl⟩
  | cons u rest ih =>
    intro c cap p t h hp hc
    obtain ⟨q, hq1, hq2, hq3⟩ := h
    exact ⟨q, hq1, hq2, ih (c + q) cap p t hq3 hp hc⟩

/-- Everything `execute_trade` can do to the capital and the history: leave
both untouched, or add one true pnl `p` to the capital and append one row
recording `round2 p` and the rounded new capital. -/
theorem sExecute_spec (s : SState) (opp : SOpp) (now : ℚ) (r : Rng) :
    ((sExecute s opp now r).1.capital = s.capital ∧
      (sExecute s opp now r).1.trades = s.trades) ∨
    ∃ p t, (sExecute s opp now r).1.capital = s.capital + p ∧
      (sExecute s opp now r).1.trades = s.trades ++ [t] ∧
      t.pnl = round2 p ∧ t.capitalAfter = round2 (s.capital + p) := by
  unfold sExecute
  rcases hc : Admission.admitCheck MAX_TRADES_PER_HOUR 30 s.admState now with ⟨a1, ok⟩
  cases ok
  · exact Or.inl ⟨rfl, rfl⟩
  · dsimp only
    rcases hd : draw r with ⟨d, r1⟩
    dsimp only
    by_cases h3 : d < 1 / 2 + opp.edge * (8 / 10) ∧ opp.marketPrice = 0
    · rw [if_pos h3]
      exact Or.inl ⟨rfl, rfl⟩
    · rw [if_neg h3]
      exact Or.inr ⟨_, _, rfl, rfl, rfl, rfl⟩

/-- Step `execute_trade` preserves the chain. -/
theorem sExecute_sChainCap (c0 : ℚ) (s : SState) (opp : SOpp) (now : ℚ)
    (r : Rng) (h : sChainCap c0 s.trades s.capital) :
    sChainCap c0 (sExecute s opp now r).1.trades
      (sExecute s opp now r).1.capital := by
  rcases sExecute_spec s opp now r with ⟨hcap, htr⟩ | ⟨p, t, hcap, htr, hp, hca⟩
  · rw [hcap, htr]; exact h
  · rw [hcap, htr]
    exact sChainCap_append s.trades c0 s.capital p t h hp hca

/-- Any state predicate preserved by `execute_trade` is preserved by a scan. -/
theorem sScanStep_pres (P : SState → Prop)
    (hP : ∀ s opp now r, P s → P (sExecute s opp now r).1) :
    ∀ (s : SState) (inp : SScanIn) (r : Rng), P s → P (sScanStep s inp r).1 := by
  intro s inp r h
  rw [sScanStep]
  rcases inp.btc with _ | btc
  · exact h
  · dsimp only
    by_cases hm : inp.markets.isEmpty
    · rw [if_pos hm]; exact h
    · rw [if_neg hm]
      rcases hf : findOpportunity btc.2 inp.markets r with ⟨oppq, r1⟩
      rcases oppq with _ | opp
      · exact h
      · dsimp only
        have hstep := hP s opp inp.time r1 h
        rcases hse : sExecute s opp inp.time r1 with ⟨s1, tq, r2⟩
        rw [hse] at hstep
        rcases tq with _ | t
        · exact hstep
        · exact hstep

/-- Any state predicate preserved by `execute_trade` is preserved by the
whole run. -/
theorem sRun_pres (P : SState → Prop)
    (hP : ∀ s opp now r, P s → P (sExecute s opp now r).1) :
    ∀ (endT : ℚ) (scans : List SScanIn) (s : SState) (r : Rng),
      P s → P (sRun endT s r scans).1 := by
  intro endT scans
  induction scans with
  | nil => intro s r h; exact h
  | cons inp rest ih =>
    intro s r h
    rw [sRun]
    by_cases ht : inp.time < endT
    · rw [if_pos ht]
      have hstep := sScanStep_pres P hP s inp r h
      rcases hb : sScanStep s inp r with ⟨s1, oid, r1⟩
      rw [hb] at hstep
      dsimp only
      have hrun := ih s1 r1 hstep
      rcases hr : sRun endT s1 r1 rest with ⟨s2, ids, r2⟩
      rw [hr] at hrun
      exact hrun
    · rw [if_neg ht]; exact h

/-- The chain bound at the first recorded trade. -/
theorem sChainCap_get_zero :
    ∀ (l : List STrade) (c cap : ℚ), sChainCap c l cap →
      ∀ (h : 0 < l.length),
        |(l.get ⟨0, h⟩).capitalAfter - (c + (l.get ⟨0, h⟩).pnl)| ≤ 3 / 200 := by
  intro l c cap hch h
  match l, hch, h with
  | t :: rest, ⟨p, hp, hc, _⟩, _ =>
    simp only [List.get]
    rw [hp, hc]
    have e1 := round2_err (c + p)
    have e2 := round2_err p
    rw [abs_le] at e1 e2 ⊢
    constructor <;> linarith [e1.1, e1.2, e2.1, e2.2]

/-- The chain bound at consecutive recorded trades. -/
theorem sChainCap_get_succ :
    ∀ (l : List STrade) (c cap : ℚ), sChainCap c l cap →
      ∀ (n : ℕ) (h : n + 1 < l.length) (h2 : n < l.length),
        |(l.get ⟨n + 1, h⟩).capitalAfter -
          ((l.get ⟨n, h2⟩).capitalAfter + (l.get ⟨n + 1, h⟩).pnl)| ≤ 3 / 200 := by
  intro l
  induction l with
  | nil => intro c cap _ n h; simp at h
  | cons t rest ih =>
    intro c cap hch n h h2
    obtain ⟨p, hp, hc, hrest⟩ := hch
    match n with
    | 0 =>
      match rest, hrest, h with
      | t1 :: rest1, ⟨p1, hp1, hc1, _⟩, _ =>
        simp only [List.get]
        rw [hc, hp1, hc1]
        exact round2_add_err (c + p) p1
    | (m + 1) =>
      have hm : m + 1 < rest.length := by
        simp only [List.length_cons] at h
        omega
      have hm2 : m < rest.length := by omega
      have := ih (c + p) cap hrest m hm hm2
      simpa using this

/-- The initial trader state built in `__init__`: the configured capital, an
empty history, and a fresh admission window opened at start time `t0`. -/
def initState (t0 : ℚ) : SState := ⟨INITIAL_CAPITAL, [], ⟨none, 0, t0⟩⟩

/-- The trade history of a full run. -/
def runTrades (endT t0 : ℚ) (r : Rng) (scans : List SScanIn) : List STrade :=
  (sRun endT (initState t0) r scans).1.trades

end SimpleLive

namespace Overnight

/-- The trade history of a full overnight run from the configured initial
capital. -/
def runTrades (endT : ℚ) (r : Rng) (scans : List OScanIn) : List OTrade :=
  (oRun endT ⟨INITIAL_CAPITAL, []⟩ r scans).1.trades

end Overnight

/-- C1, amended.  In `overnight_simulation` the conservation identities hold
exactly on the recorded history: the first trade closes at the initial
capital plus its pnl and every later trade closes at the previous
`capital_after` plus its own pnl, and `execute_trade` either leaves the
state untouched or appends exactly one trade and adds exactly the pnl of
that trade to the capital.  In `simple_live_trading` the engine capital likewise
changes only by adding the true pnl of one completed trade, but the recorded
`pnl` and `capital_after` fields are rounded to two decimals, so the
recorded identity only holds up to a defect of at most `3/200` dollars. -/
theorem c1_ledger_conservation :
    (∀ (endT : ℚ) (r : Rng) (scans : List Overnight.OScanIn) (n : ℕ)
        (h : n < (Overnight.runTrades endT r scans).length)
        (h2 : n - 1 < (Overnight.runTrades endT r scans).length),
        ((Overnight.runTrades endT r scans).get ⟨n, h⟩).capitalAfter =
          (if n = 0 then Overnight.INITIAL_CAPITAL
           else ((Overnight.runTrades endT r scans).get ⟨n - 1, h2⟩).capitalAfter) +
            ((Overnight.runTrades endT r scans).get ⟨n, h⟩).pnl) ∧
    (∀ (s : Overnight.OState) (sig : Overnight.Signal) (r : Rng),
        (Overnight.executeTrade s sig r).st = s ∨
        ∃ t, (Overnight.executeTrade s sig r).st.trades = s.trades ++ [t] ∧
          (Overnight.executeTrade s sig r).st.capital = s.capital + t.pnl) ∧
    (∀ (s : SimpleLive.SState) (opp : SimpleLive.SOpp) (now : ℚ) (r : Rng),
        ((SimpleLive.sExecute s opp now r).1.capital = s.capital ∧
          (SimpleLive.sExecute s opp now r).1.trades = s.trades) ∨
        ∃ p t, (SimpleLive.sExecute s opp now r).1.capital = s.capital + p ∧
          (SimpleLive.sExecute s opp now r).1.trades = s.trades ++ [t] ∧
          t.pnl = round2 p ∧ t.capitalAfter = round2 (s.capital + p)) ∧
    (∀ (endT t0 : ℚ) (r : Rng) (scans : List SimpleLive.SScanIn) (n : ℕ)
        (h : n < (SimpleLive.runTrades endT t0 r scans).length)
        (h2 : n - 1 < (SimpleLive.runTrades endT t0 r scans).length),
        |((SimpleLive.runTrades endT t0 r scans).get ⟨n, h⟩).capitalAfter -
          ((if n = 0 then SimpleLive.INITIAL_CAPITAL
            else ((SimpleLive.runTrades endT t0 r scans).get ⟨n - 1, h2⟩).capitalAfter) +
            ((SimpleLive.runTrades endT t0 r scans).get ⟨n, h⟩).pnl)| ≤ 3 / 200) := by
  refine ⟨?_, ?_, ?_, ?_⟩
  · intro endT r scans n h h2
    have hinv := Overnight.oRun_pres (Overnight.oInv Overnight.INITIAL_CAPITAL)
      (Overnight.executeTrade_oInv Overnight.INITIAL_CAPITAL) endT scans
      ⟨Overnight.INITIAL_CAPITAL, []⟩ r ⟨trivial, rfl⟩
    exact Overnight.ledgerChain_get _ _ hinv.1 n h h2
  · intro s sig r
    rcases Overnight.executeTrade_spec s sig r with ⟨h1, _⟩ | ⟨t, _, htr, hcap, _⟩
    · exact Or.inl h1
    · exact Or.inr ⟨t, htr, hcap⟩
  · intro s opp now r
    exact SimpleLive.sExecute_spec s opp now r
  · intro endT t0 r scans n h h2
    have hinv := SimpleLive.sRun_pres
      (fun s => SimpleLive.sChainCap SimpleLive.INITIAL_CAPITAL s.trades s.capital)
      (SimpleLive.sExecute_sChainCap SimpleLive.INITIAL_CAPITAL) endT scans
      (SimpleLive.initState t0) r rfl
    match n, h, h2 with
    | 0, h, h2 =>
      simpa using SimpleLive.sChainCap_get_zero _ _ _ hinv h
    | (m + 1), h, h2 =>
      simpa using SimpleLive.sChainCap_get_succ _ _ _ hinv m h (by simpa using h2)

/-- The concrete market and scans of the one-trade overnight run used to
instantiate C1. -/
def c1oMarket : Overnight.OMarket :=
  ⟨1, [kwBitcoin, kwUp], [], 20000, 2, [some (1 / 2), some (1 / 2)]⟩

def c1oScan : Overnight.OScanIn := ⟨0, some 20, [c1oMarket]⟩

theorem c1o_len : 0 < (Overnight.runTrades 1000 [0] [c1oScan]).length := by
  norm_num [Overnight.runTrades, Overnight.oRun, Overnight.oScanBody,
    Overnight.oSignals, Overnight.analyzeMarket, Overnight.fairDraw,
    Overnight.signalOf, Overnight.isCryptoO, Overnight.sortSignals,
    Overnight.oExecList, Overnight.executeTrade, Overnight.MIN_EDGE,
    Overnight.MIN_CONFIDENCE, Overnight.KELLY_FRACTION,
    Overnight.MAX_POSITION_PCT, Overnight.INITIAL_CAPITAL, c1oScan, c1oMarket,
    Overnight.cryptoKeywords, Overnight.upKeywords, Overnight.downKeywords,
    hasAny, List.contains, List.any, kwBitcoin, kwBtc, kwUp, kwEthereum,
    kwEth, kwSolana, kwSol, kwCrypto, kwAbove, kwRise, kwDown, kwBelow,
    kwFall, draw, abs_eq_max_neg, min_def, max_def]

/-- Closed instance of the C1 theorem at a concrete one-trade run. -/
theorem c1_witness :
    ((Overnight.runTrades 1000 [0] [c1oScan]).get ⟨0, c1o_len⟩).capitalAfter =
      Overnight.INITIAL_CAPITAL +
        ((Overnight.runTrades 1000 [0] [c1oScan]).get ⟨0, c1o_len⟩).pnl := by
  have := c1_ledger_conservation.1 1000 [0] [c1oScan] 0 c1o_len c1o_len
  simpa using this

/-- The concrete market of the two-trade `simple_live_trading` run that
breaks the recorded identity: a crypto market at yes price `5000/10557`. -/
def c1sMarket : SimpleLive.SMarket :=
  ⟨7, [kwBitcoin, kwUp], 20000, some [some (5000 / 10557), some (13 / 25)]⟩

def c1sScans : List SimpleLive.SScanIn :=
  [⟨0, some (0, 30), [c1sMarket]⟩, ⟨40, some (0, 30), [c1sMarket]⟩]

set_option maxRecDepth 8000

/-- Counterexample to C1 as stated: in the recorded history of this
`simple_live_trading` run, the second trade has
`capital_after = 103.34` while the first `capital_after` plus the second
`pnl` is `111.11 - 7.78 = 103.33`. -/
theorem c1_counterexample :
    (SimpleLive.runTrades 1000 0 [0, 1] c1sScans).map
        SimpleLive.STrade.capitalAfter = [11111 / 100, 10334 / 100] ∧
    (SimpleLive.runTrades 1000 0 [0, 1] c1sScans).map
        SimpleLive.STrade.pnl = [1111 / 100, -778 / 100] ∧
    (10334 / 100 : ℚ) ≠ 11111 / 100 + -778 / 100 := by
  norm_num [SimpleLive.runTrades, SimpleLive.initState, SimpleLive.sRun,
    SimpleLive.sScanStep, SimpleLive.findOpportunity, SimpleLive.sOpportunities,
    SimpleLive.analyzeOne, SimpleLive.sFairDraw, SimpleLive.sOppOf,
    SimpleLive.isCryptoS, SimpleLive.sExecute, SimpleLive.oppKey,
    SimpleLive.MIN_EDGE, SimpleLive.MAX_TRADES_PER_HOUR,
    SimpleLive.INITIAL_CAPITAL, pickMaxBy, kellySize, draw,
    Admission.admitCheck, Admission.admitAccept, hasAny, List.contains,
    List.any, SimpleLive.cryptoKeywordsS, SimpleLive.upKeywordsS, c1sScans,
    c1sMarket, kwBitcoin, kwBtc, kwCrypto, kwEth, kwUp, kwAbove, kwHit,
    round2, round4, round_eq, min_def, max_def, abs_eq_max_neg,
    Int.floor_eq_iff]

namespace Overnight

/-- What a produced signal always satisfies, in terms of its own recorded
fair probability: the id comes from the market, the edge is the magnitude of
the larger-magnitude side edge, the side is chosen by the signed comparison,
the price is the chosen side price, and the edge passed the threshold. -/
theorem signalOf_some_spec (m : OMarket) (y n fair0 : ℚ) (sig : Signal)
    (h : signalOf m y n fair0 = some sig) :
    sig.marketId = m.id ∧
    sig.fairProb = max (1 / 10) (min (9 / 10) fair0) ∧
    sig.edge = |(if |sig.fairProb - y| > |(1 - sig.fairProb) - n|
                 then sig.fairProb - y else (1 - sig.fairProb) - n)| ∧
    sig.side = (if sig.fairProb - y > (1 - sig.fairProb) - n
                then Side.yes else Side.no) ∧
    sig.marketPrice = (if sig.side = Side.yes then y else n) ∧
    MIN_EDGE ≤ sig.edge := by
  unfold signalOf at h
  dsimp only at h
  set fair := max (1 / 10) (min (9 / 10) fair0) with hfair
  set ye := fair - y with hye
  set ne2 := (1 - fair) - n with hne
  set be := if |ye| > |ne2| then ye else ne2 with hbe
  by_cases hedge : |be| < MIN_EDGE
  · rw [if_pos hedge] at h
    cases h
  · rw [if_neg hedge] at h
    injection h with h
    subst h
    exact ⟨rfl, rfl, rfl, rfl, rfl, not_lt.mp hedge⟩

/-- A produced signal comes from a parsed, non-extreme pair of prices and a
fair-value estimate fed to `signalOf`. -/
theorem analyzeMarket_some_spec (m : OMarket) (kl : Option ℚ) (r r2 : Rng)
    (sig : Signal) (h : analyzeMarket m kl r = (some sig, r2)) :
    ∃ (y n : ℚ) (tl : List (Option ℚ)) (fair0 : ℚ),
      m.outcomePrices = some y :: some n :: tl ∧
      ¬ (y ≤ 5 / 100 ∨ y ≥ 95 / 100) ∧
      signalOf m y n fair0 = some sig := by
  unfold analyzeMarket at h
  split at h
  · exact absurd h (by simp)
  · split at h
    · exact absurd h (by simp)
    · split at h
      · rename_i y n tl heq
        split at h
        · exact absurd h (by simp)
        · rename_i hext
          rcases hfd : fairDraw m kl y r with ⟨f0, r1⟩
          rw [hfd] at h
          dsimp only at h
          refine ⟨y, n, tl, f0, heq, hext, ?_⟩
          have h1 := congrArg Prod.fst h
          exact h1
      · exact absurd h (by simp)

/-- Extremity exclusion on the side the source checks: any market whose
first (yes) outcome price parses to a value at or beyond the bounds is
rejected before the estimator runs, with no seed consumed. -/
theorem analyzeMarket_extreme (m : OMarket) (kl : Option ℚ) (r : Rng)
    (y : ℚ) (tl : List (Option ℚ)) (hp : m.outcomePrices = some y :: tl)
    (hy : y ≤ 5 / 100 ∨ y ≥ 95 / 100) :
    analyzeMarket m kl r = (none, r) := by
  unfold analyzeMarket
  split
  · rfl
  · split
    · rfl
    · rename_i h1 h2
      rw [hp]
      rcases tl with _ | ⟨yn, tl2⟩
      · exfalso
        rw [hp] at h2
        simp at h2
      · rcases yn with _ | nv
        · rfl
        · dsimp only
          rw [if_pos hy]

end Overnight

namespace SimpleLive

/-- What a produced opportunity always satisfies: the id comes from the
market, the edge is the larger signed side edge, the side matches it, the
price is the chosen side price, and the edge passed the threshold. -/
theorem sOppOf_some_spec (m : SMarket) (y n fair0 : ℚ) (o : SOpp)
    (h : sOppOf m y n fair0 = some o) :
    o.marketId = m.id ∧
    o.fairProb = max (15 / 100) (min (85 / 100) fair0) ∧
    o.edge = max (o.fairProb - y) ((1 - o.fairProb) - n) ∧
    o.side = (if o.fairProb - y > (1 - o.fairProb) - n
              then Side.yes else Side.no) ∧
    o.marketPrice = (if o.side = Side.yes then y else n) ∧
    MIN_EDGE ≤ o.edge := by
  unfold sOppOf at h
  dsimp only at h
  set fair := max (15 / 100) (min (85 / 100) fair0) with hfair
  set ye := fair - y with hye
  set ne2 := (1 - fair) - n with hne
  by_cases hedge : max ye ne2 ≥ MIN_EDGE
  · rw [if_pos hedge] at h
    injection h with h
    subst h
    exact ⟨rfl, rfl, rfl, rfl, rfl, hedge⟩
  · rw [if_neg hedge] at h
    cases h

/-- A produced opportunity comes from a parsed, non-extreme pair of prices
and a fair-value estimate fed to `sOppOf`. -/
theorem analyzeOne_some_spec (btc : ℚ) (m : SMarket) (r r2 : Rng) (o : SOpp)
    (h : analyzeOne btc m r = (some o, r2)) :
    ∃ (y n : ℚ) (tl : List (Option ℚ)) (fair0 : ℚ),
      m.outcomePricesRaw = some (some y :: some n :: tl) ∧
      ¬ (y ≤ 1 / 10 ∨ y ≥ 9 / 10) ∧
      sOppOf m y n fair0 = some o := by
  unfold analyzeOne at h
  split at h
  · exact absurd h (by simp)
  · rename_i prices heq0
    split at h
    · exact absurd h (by simp)
    · split at h
      · rename_i y n tl hlen
        split at h
        · exact absurd h (by simp)
        · rename_i hext
          rcases hfd : sFairDraw m btc y r with ⟨f0, r1⟩
          rw [hfd] at h
          dsimp only at h
          exact ⟨y, n, tl, f0, heq0, hext, congrArg Prod.fst h⟩
      · exact absurd h (by simp)

/-- Extremity exclusion on the side the source checks, for
`simple_live_trading`: a yes price at or beyond `0.1`/`0.9` is dropped
before the estimator runs, with no seed consumed. -/
theorem analyzeOne_extreme (btc : ℚ) (m : SMarket) (r : Rng) (y : ℚ)
    (tl : List (Option ℚ)) (hp : m.outcomePricesRaw = some (some y :: tl))
    (hy : y ≤ 1 / 10 ∨ y ≥ 9 / 10) :
    analyzeOne btc m r = (none, r) := by
  unfold analyzeOne
  rw [hp]
  dsimp only
  split
  · rfl
  · rename_i h2
    rcases tl with _ | ⟨yn, tl2⟩
    · exfalso
      simp at h2
    · rcases yn with _ | nv
      · rfl
      · dsimp only
        rw [if_pos hy]

end SimpleLive

namespace Overnight

/-- A market whose first (yes) outcome price parses to a value at or beyond
the configured extremity bounds of `overnight_simulation`. -/
def OExtremeYes (m : OMarket) : Prop :=
  ∃ y tl, m.outcomePrices = some y :: tl ∧ (y ≤ 5 / 100 ∨ y ≥ 95 / 100)

/-- Every collected signal was produced by `analyze_market` on one of the
scanned markets. -/
theorem oSignals_mem :
    ∀ (ms : List OMarket) (kl : Option ℚ) (r : Rng) (sig : Signal),
      sig ∈ (oSignals kl ms r).1 →
      ∃ m ∈ ms, ∃ (r2 r3 : Rng), analyzeMarket m kl r2 = (some sig, r3) := by
  intro ms
  induction ms with
  | nil =>
    intro kl r sig h
    simp [oSignals] at h
  | cons m rest ih =>
    intro kl r sig h
    rw [oSignals] at h
    rcases ha : analyzeMarket m kl r with ⟨sq, r1⟩
    rw [ha] at h
    rcases sq with _ | s0
    · dsimp only at h
      rcases ih kl r1 sig h with ⟨m2, hm2, r2, r3, h2⟩
      exact ⟨m2, List.mem_cons_of_mem m hm2, r2, r3, h2⟩
    · dsimp only at h
      rcases hsp : oSignals kl rest r1 with ⟨sigs2, r4⟩
      rw [hsp] at h
      dsimp only at h
      rcases List.mem_cons.1 h with h | h
      · exact ⟨m, by simp, r, r1, by rw [ha, h]⟩
      · rcases ih kl r1 sig (by rw [hsp]; exact h) with ⟨m2, hm2, r2, r3, h2⟩
        exact ⟨m2, List.mem_cons_of_mem m hm2, r2, r3, h2⟩

/-- Every trade present after the per-scan execution loop was already there
or carries the id of one of the attempted signals. -/
theorem oExecList_mem :
    ∀ (sigs : List Signal) (s : OState) (r : Rng) (k : ℕ) (t : OTrade),
      t ∈ (oExecList s r k sigs).1.trades →
      t ∈ s.trades ∨ ∃ sig ∈ sigs, t.marketId = sig.marketId := by
  intro sigs
  induction sigs with
  | nil => intro s r k t ht; exact Or.inl ht
  | cons sig rest ih =>
    intro s r k t ht
    rw [oExecList] at ht
    by_cases hk : 2 ≤ k
    · rw [if_pos hk] at ht
      exact Or.inl ht
    · rw [if_neg hk] at ht
      have hstep : ∀ u ∈ (executeTrade s sig r).st.trades,
          u ∈ s.trades ∨ u.marketId = sig.marketId := by
        intro u hu
        rcases executeTrade_spec s sig r with ⟨h1, _⟩ |
          ⟨t2, _, htr, _, _, _, _, _, hid⟩
        · rw [h1] at hu
          exact Or.inl hu
        · rw [htr] at hu
          rcases List.mem_append.1 hu with hu | hu
          · exact Or.inl hu
          · right
            have he : u = t2 := by simpa using hu
            rw [he, hid]
      rcases hok : (executeTrade s sig r).ok
      · simp only [hok, Bool.false_eq_true, if_false] at ht
        rcases hstep t ht with h | h
        · exact Or.inl h
        · exact Or.inr ⟨sig, by simp, h⟩
      · simp only [hok, if_true] at ht
        rcases hexec : (executeTrade s sig r).trade with _ | tr
        · simp only [hexec] at ht
          rcases ih _ _ _ _ ht with h | ⟨sig2, hs2, hid2⟩
          · rcases hstep t h with h | h
            · exact Or.inl h
            · exact Or.inr ⟨sig, by simp, h⟩
          · exact Or.inr ⟨sig2, by simp [hs2], hid2⟩
        · simp only [hexec] at ht
          rcases ih _ _ _ _ ht with h | ⟨sig2, hs2, hid2⟩
          · rcases hstep t h with h | h
            · exact Or.inl h
            · exact Or.inr ⟨sig, by simp, h⟩
          · exact Or.inr ⟨sig2, by simp [hs2], hid2⟩

/-- If every scanned market with id `i` is extreme on the yes side, no trade
the scan adds carries id `i`. -/
theorem oScanBody_no_extreme (s : OState) (inp : OScanIn) (r : Rng) (i : ℕ)
    (hx : ∀ m ∈ inp.markets, m.id = i → OExtremeYes m) :
    ∀ t ∈ (oScanBody s inp r).1.trades, t ∈ s.trades ∨ t.marketId ≠ i := by
  intro t ht
  rw [oScanBody] at ht
  rcases hsigs : oSignals inp.klines inp.markets r with ⟨sigs, r1⟩
  rw [hsigs] at ht
  dsimp only at ht
  rcases oExecList_mem _ _ _ _ _ ht with h | ⟨sig, hsig, hid⟩
  · exact Or.inl h
  · right
    have hmem : sig ∈ sigs := List.mem_mergeSort.mp (List.take_subset 3 _ hsig)
    rcases oSignals_mem inp.markets inp.klines r sig
        (by rw [hsigs]; exact hmem) with ⟨m, hm, r2, r3, hana⟩
    obtain ⟨y, n, tl, f0, hp, hext, hsigOf⟩ :=
      analyzeMarket_some_spec m inp.klines r2 r3 sig hana
    obtain ⟨hid2, -⟩ := signalOf_some_spec m y n f0 sig hsigOf
    intro hti
    have hmi : m.id = i := by rw [← hid2, ← hid, hti]
    rcases hx m hm hmi with ⟨y2, tl2, hp2, hy2⟩
    rw [hp] at hp2
    injection hp2 with h1 h2
    injection h1 with h1
    exact hext (h1 ▸ hy2)

/-- Lifting the scan-level exclusion along a whole run. -/
theorem oRun_no_extreme (endT : ℚ) (i : ℕ) :
    ∀ (scans : List OScanIn) (s : OState) (r : Rng),
      (∀ inp ∈ scans, ∀ m ∈ inp.markets, m.id = i → OExtremeYes m) →
      (∀ t ∈ s.trades, t.marketId ≠ i) →
      ∀ t ∈ (oRun endT s r scans).1.trades, t.marketId ≠ i := by
  intro scans
  induction scans with
  | nil => intro s r _ hs t ht; exact hs t ht
  | cons inp rest ih =>
    intro s r hx hs t ht
    rw [oRun] at ht
    by_cases htime : inp.time < endT
    · rw [if_pos htime] at ht
      rcases hb : oScanBody s inp r with ⟨s1, r1⟩
      rw [hb] at ht
      dsimp only at ht
      have hs1 : ∀ u ∈ s1.trades, u.marketId ≠ i := by
        intro u hu
        have := oScanBody_no_extreme s inp r i
          (hx inp (by simp)) u (by rw [hb]; exact hu)
        rcases this with h | h
        · exact hs u h
        · exact h
      exact ih s1 r1 (fun inp2 h2 => hx inp2 (by simp [h2])) hs1 t ht
    · rw [if_neg htime] at ht
      exact hs t ht

end Overnight

namespace SimpleLive

/-- A market whose first (yes) outcome price parses to a value at or beyond
the configured extremity bounds of `simple_live_trading`. -/
def SExtremeYes (m : SMarket) : Prop :=
  ∃ y tl, m.outcomePricesRaw = some (some y :: tl) ∧ (y ≤ 1 / 10 ∨ y ≥ 9 / 10)

/-- Every collected opportunity was produced by the per-market analysis on
one of the scanned markets. -/
theorem sOpportunities_mem :
    ∀ (ms : List SMarket) (btc : ℚ) (r : Rng) (o : SOpp),
      o ∈ (sOpportunities btc ms r).1 →
      ∃ m ∈ ms, ∃ (r2 r3 : Rng), analyzeOne btc m r2 = (some o, r3) := by
  intro ms
  induction ms with
  | nil =>
    intro btc r o h
    simp [sOpportunities] at h
  | cons m rest ih =>
    intro btc r o h
    rw [sOpportunities] at h
    rcases ha : analyzeOne btc m r with ⟨oq, r1⟩
    rw [ha] at h
    rcases oq with _ | o0
    · dsimp only at h
      rcases ih btc r1 o h with ⟨m2, hm2, r2, r3, h2⟩
      exact ⟨m2, List.mem_cons_of_mem m hm2, r2, r3, h2⟩
    · dsimp only at h
      rcases hsp : sOpportunities btc rest r1 with ⟨os2, r4⟩
      rw [hsp] at h
      dsimp only at h
      rcases List.mem_cons.1 h with h | h
      · exact ⟨m, by simp, r, r1, by rw [ha, h]⟩
      · rcases ih btc r1 o (by rw [hsp]; exact h) with ⟨m2, hm2, r2, r3, h2⟩
        exact ⟨m2, List.mem_cons_of_mem m hm2, r2, r3, h2⟩

/-- A scan that reports an executed market id obtained it from an
opportunity produced on one of its markets. -/
theorem sScanStep_id (s : SState) (inp : SScanIn) (r : Rng) (j : ℕ)
    (h : (sScanStep s inp r).2.1 = some j) :
    ∃ (btc : ℚ × ℚ) (m : SMarket) (r2 r3 : Rng) (o : SOpp),
      inp.btc = some btc ∧ m ∈ inp.markets ∧
      analyzeOne btc.2 m r2 = (some o, r3) ∧ o.marketId = j := by
  rw [sScanStep] at h
  rcases hbtc : inp.btc with _ | btc
  · rw [hbtc] at h
    cases h
  · rw [hbtc] at h
    dsimp only at h
    by_cases hm : inp.markets.isEmpty
    · rw [if_pos hm] at h
      cases h
    · rw [if_neg hm] at h
      rcases hf : findOpportunity btc.2 inp.markets r with ⟨oq, r1⟩
      rw [hf] at h
      rcases oq with _ | opp
      · cases h
      · dsimp only at h
        rcases hse : sExecute s opp inp.time r1 with ⟨s1, tq, r2⟩
        rw [hse] at h
        rcases tq with _ | tr
        · cases h
        · dsimp only at h
          injection h with h
          rw [findOpportunity] at hf
          rcases ho : sOpportunities btc.2 inp.markets r with ⟨opps, r4⟩
          rw [ho] at hf
          dsimp only at hf
          have hpick := congrArg Prod.fst hf
          dsimp at hpick
          have hm2 := pickMaxBy_mem oppKey opps opp hpick
          rcases sOpportunities_mem inp.markets btc.2 r opp
              (by rw [ho]; exact hm2) with ⟨m, hmm, r5, r6, hana⟩
          exact ⟨btc, m, r5, r6, opp, rfl, hmm, hana, h⟩

/-- Lifting the exclusion along a whole run: if every scanned market with id
`i` is extreme on the yes side, id `i` is never traded. -/
theorem sRun_no_extreme (endT : ℚ) (i : ℕ) :
    ∀ (scans : List SScanIn) (s : SState) (r : Rng),
      (∀ inp ∈ scans, ∀ m ∈ inp.markets, m.id = i → SExtremeYes m) →
      i ∉ (sRun endT s r scans).2.1 := by
  intro scans
  induction scans with
  | nil => intro s r _ h; simp [sRun] at h
  | cons inp rest ih =>
    intro s r hx h
    rw [sRun] at h
    by_cases htime : inp.time < endT
    · rw [if_pos htime] at h
      rcases hb : sScanStep s inp r with ⟨s1, oid, r1⟩
      rw [hb] at h
      dsimp only at h
      rcases hr : sRun endT s1 r1 rest with ⟨s2, ids, r2⟩
      rw [hr] at h
      dsimp only at h
      rcases List.mem_append.1 h with h | h
      · rcases oid with _ | j
        · simp at h
        · have hj : j = i := by
            have hji := h
            simp at hji
            exact hji.symm
          have := sScanStep_id s inp r j (by rw [hb])
          rcases this with ⟨btc, m, r3, r4, o, _, hmm, hana, hoid⟩
          obtain ⟨y, n, tl, f0, hp, hext, hOppOf⟩ :=
            analyzeOne_some_spec btc.2 m r3 r4 o hana
          obtain ⟨hid2, -⟩ := sOppOf_some_spec m y n f0 o hOppOf
          have hmi : m.id = i := by rw [← hid2, hoid, hj]
          rcases hx inp (by simp) m hmm hmi with ⟨y2, tl2, hp2, hy2⟩
          rw [hp] at hp2
          injection hp2 with hp2
          injection hp2 with h1 h2
          injection h1 with h1
          exact hext (by rw [h1]; exact hy2)
      · have := ih s1 r1 (fun inp2 h2 => hx inp2 (by simp [h2]))
        rw [hr] at this
        exact this h
    · rw [if_neg htime] at h
      simp at h

end SimpleLive

/-- C4, amended.  The extremity filters test only the first (yes) outcome
price: any market whose yes price parses at or beyond the bounds (in
particular `yesPrice = 0.97`) is excluded by both analyzers regardless of
any other signal, no seed is consumed for it, and no trade for such a
market id is ever recorded in a whole run.  A market whose no price alone
is extreme is not excluded (see the counterexample). -/
theorem c4_extremity_exclusion :
    (∀ (m : Overnight.OMarket) (kl : Option ℚ) (r : Rng) (y : ℚ)
        (tl : List (Option ℚ)), m.outcomePrices = some y :: tl →
        (y ≤ 5 / 100 ∨ y ≥ 95 / 100) →
        Overnight.analyzeMarket m kl r = (none, r)) ∧
    (∀ (btc : ℚ) (m : SimpleLive.SMarket) (r : Rng) (y : ℚ)
        (tl : List (Option ℚ)), m.outcomePricesRaw = some (some y :: tl) →
        (y ≤ 1 / 10 ∨ y ≥ 9 / 10) →
        SimpleLive.analyzeOne btc m r = (none, r)) ∧
    (∀ (endT : ℚ) (r : Rng) (scans : List Overnight.OScanIn) (i : ℕ),
        (∀ inp ∈ scans, ∀ m ∈ inp.markets, m.id = i → Overnight.OExtremeYes m) →
        ∀ t ∈ (Overnight.oRun endT ⟨Overnight.INITIAL_CAPITAL, []⟩
            r scans).1.trades, t.marketId ≠ i) ∧
    (∀ (endT t0 : ℚ) (r : Rng) (scans : List SimpleLive.SScanIn) (i : ℕ),
        (∀ inp ∈ scans, ∀ m ∈ inp.markets, m.id = i → SimpleLive.SExtremeYes m) →
        i ∉ (SimpleLive.sRun endT (SimpleLive.initState t0) r scans).2.1) :=
  ⟨fun m kl r y tl hp hy => Overnight.analyzeMarket_extreme m kl r y tl hp hy,
   fun btc m r y tl hp hy => SimpleLive.analyzeOne_extreme btc m r y tl hp hy,
   fun endT r scans i hx =>
     Overnight.oRun_no_extreme endT i scans ⟨Overnight.INITIAL_CAPITAL, []⟩ r hx
       (by intro t ht; cases ht),
   fun endT t0 r scans i hx =>
     SimpleLive.sRun_no_extreme endT i scans (SimpleLive.initState t0) r hx⟩

/-- Markets quoted at `yesPrice = 0.97`, used to instantiate C4. -/
def c4wO : Overnight.OMarket :=
  ⟨3, [], [], 20000, 2, [some (97 / 100), some (3 / 100)]⟩

def c4wS : SimpleLive.SMarket :=
  ⟨4, [], 20000, some [some (97 / 100), some (3 / 100)]⟩

/-- Closed instance of the C4 theorem: both analyzers reject a market
quoted at `yesPrice = 0.97`. -/
theorem c4_witness :
    Overnight.analyzeMarket c4wO (some 20) [] = (none, []) ∧
    SimpleLive.analyzeOne 30 c4wS [] = (none, []) :=
  ⟨c4_extremity_exclusion.1 c4wO (some 20) [] (97 / 100) [some (3 / 100)]
     rfl (by norm_num),
   c4_extremity_exclusion.2.1 30 c4wS [] (97 / 100) [some (3 / 100)]
     rfl (by norm_num)⟩

/-- A crypto market whose no price is extreme (`0.97`) while its yes price
is not. -/
def c4xMarket : Overnight.OMarket :=
  ⟨5, [kwBitcoin, kwUp], [], 20000, 2, [some (1 / 2), some (97 / 100)]⟩

/-- Counterexample to C4 as stated: a market quoted at `noPrice = 0.97` —
at or beyond the configured bound — still yields an opportunity, and a scan
records a trade for it. -/
theorem c4_counterexample :
    ((Overnight.analyzeMarket c4xMarket (some 20) []).1).map
        Overnight.Signal.marketId = some 5 ∧
    (Overnight.oScanBody ⟨100, []⟩ ⟨0, some 20, [c4xMarket]⟩ []).1.trades.map
        Overnight.OTrade.marketId = [5] ∧
    ((97 : ℚ) / 100 ≥ 95 / 100) := by
  norm_num [Overnight.oScanBody, Overnight.oSignals, Overnight.analyzeMarket,
    Overnight.fairDraw, Overnight.signalOf, Overnight.isCryptoO,
    Overnight.sortSignals, Overnight.oExecList, Overnight.executeTrade,
    Overnight.MIN_EDGE, Overnight.MIN_CONFIDENCE, Overnight.KELLY_FRACTION,
    Overnight.MAX_POSITION_PCT, c4xMarket, Overnight.cryptoKeywords,
    Overnight.upKeywords, Overnight.downKeywords, hasAny, List.contains,
    List.any, kwBitcoin, kwBtc, kwUp, kwEthereum, kwEth, kwSolana, kwSol,
    kwCrypto, kwAbove, kwRise, kwDown, kwBelow, kwFall, draw,
    abs_eq_max_neg, min_def, max_def]

/-- C6, amended.  Both estimators compute `edgeYes = fair − yesPrice` and
`edgeNo = (1 − fair) − noPrice`.  `overnight_simulation` returns the
magnitude of the larger-magnitude edge as the edge value but chooses the
side by the signed comparison `edgeYes > edgeNo`, so the returned side need
not be the larger-magnitude side and the returned edge need not be that
edge of that side (see the counterexample).  `simple_live_trading` instead picks
the larger signed edge: its returned edge is always the own edge of the
returned side, but again not the larger-magnitude one. -/
theorem c6_side_selection :
    (∀ (m : Overnight.OMarket) (kl : Option ℚ) (r r2 : Rng)
        (sig : Overnight.Signal) (y n : ℚ) (tl : List (Option ℚ)),
        Overnight.analyzeMarket m kl r = (some sig, r2) →
        m.outcomePrices = some y :: some n :: tl →
        sig.edge = max |sig.fairProb - y| |(1 - sig.fairProb) - n| ∧
        (sig.side = Side.yes ↔ (1 - sig.fairProb) - n < sig.fairProb - y)) ∧
    (∀ (btc : ℚ) (m : SimpleLive.SMarket) (r r2 : Rng) (o : SimpleLive.SOpp)
        (y n : ℚ) (tl : List (Option ℚ)),
        SimpleLive.analyzeOne btc m r = (some o, r2) →
        m.outcomePricesRaw = some (some y :: some n :: tl) →
        o.edge = max (o.fairProb - y) ((1 - o.fairProb) - n) ∧
        (o.side = Side.yes → o.edge = o.fairProb - y ∧ o.marketPrice = y) ∧
        (o.side = Side.no → o.edge = (1 - o.fairProb) - n ∧ o.marketPrice = n)) := by
  constructor
  · intro m kl r r2 sig y n tl hana hp
    obtain ⟨y2, n2, tl2, f0, hp2, hext, hsig⟩ :=
      Overnight.analyzeMarket_some_spec m kl r r2 sig hana
    rw [hp] at hp2
    injection hp2 with h1 h2
    injection h2 with h2 h3
    injection h1 with h1
    injection h2 with h2
    subst h1
    subst h2
    obtain ⟨hid, hfair, hedge, hside, hprice, hmin⟩ :=
      Overnight.signalOf_some_spec m y n f0 sig hsig
    constructor
    · by_cases hab : |sig.fairProb - y| > |(1 - sig.fairProb) - n|
      · rw [hedge, if_pos hab]
        exact (max_eq_left (le_of_lt hab)).symm
      · rw [hedge, if_neg hab]
        exact (max_eq_right (not_lt.mp hab)).symm
    · rw [hside]
      by_cases hcmp : sig.fairProb - y > (1 - sig.fairProb) - n
      · rw [if_pos hcmp]
        simp [hcmp]
      · rw [if_neg hcmp]
        simp [hcmp]
  · intro btc m r r2 o y n tl hana hp
    obtain ⟨y2, n2, tl2, f0, hp2, hext, hopp⟩ :=
      SimpleLive.analyzeOne_some_spec btc m r r2 o hana
    rw [hp] at hp2
    injection hp2 with hp2
    injection hp2 with h1 h2
    injection h2 with h2 h3
    injection h1 with h1
    injection h2 with h2
    subst h1
    subst h2
    obtain ⟨hid, hfair, hedge, hside, hprice, hmin⟩ :=
      SimpleLive.sOppOf_some_spec m y n f0 o hopp
    refine ⟨hedge, ?_, ?_⟩
    · intro hyes
      by_cases hcmp : o.fairProb - y > (1 - o.fairProb) - n
      · constructor
        · rw [hedge]
          exact max_eq_left (le_of_lt hcmp)
        · rw [hprice, hyes]
          simp
      · rw [hside, if_neg hcmp] at hyes
        exact absurd hyes (by simp)
    · intro hno
      by_cases hcmp : o.fairProb - y > (1 - o.fairProb) - n
      · rw [hside, if_pos hcmp] at hno
        exact absurd hno (by simp)
      · constructor
        · rw [hedge]
          exact max_eq_right (not_lt.mp hcmp)
        · rw [hprice, hno]
          simp

/-- The signal the overnight analyzer produces on the witness market. -/
def c6wSig : Overnight.Signal :=
  ⟨1, Side.yes, 2 / 5, 9 / 10, 1 / 2, 20000, 9 / 10, true⟩

theorem c6w_eval :
    Overnight.analyzeMarket c1oMarket (some 20) [] = (some c6wSig, []) := by
  norm_num [Overnight.analyzeMarket, Overnight.fairDraw, Overnight.signalOf,
    Overnight.isCryptoO, hasAny, Overnight.cryptoKeywords,
    Overnight.upKeywords, Overnight.downKeywords, Overnight.MIN_EDGE,
    List.contains, List.any, kwBitcoin, kwBtc, kwUp, kwEthereum, kwEth,
    kwSolana, kwSol, kwCrypto, kwAbove, kwRise, c1oMarket, c6wSig,
    abs_eq_max_neg, min_def, max_def]

/-- Closed instance of the C6 theorem at a concrete analyzed market. -/
theorem c6_witness :
    c6wSig.edge = max |c6wSig.fairProb - 1 / 2| |(1 - c6wSig.fairProb) - 1 / 2| ∧
    (c6wSig.side = Side.yes ↔
      (1 - c6wSig.fairProb) - 1 / 2 < c6wSig.fairProb - 1 / 2) :=
  c6_side_selection.1 c1oMarket (some 20) [] [] c6wSig (1 / 2) (1 / 2) []
    c6w_eval rfl

/-- A crypto market where the no-side edge has the larger magnitude but the
signed comparison still picks the yes side. -/
def c6xMarket : Overnight.OMarket :=
  ⟨9, [kwBitcoin, kwUp], [], 20000, 2, [some (1 / 2), some (4 / 5)]⟩

/-- Counterexample to C6 as stated: with fair probability `0.9`, yes price
`0.5` and no price `0.8`, the no edge `-0.7` has the larger magnitude, yet
the returned side is YES and the returned edge is `0.7`, which is not the
yes-side edge `0.4`. -/
theorem c6_counterexample :
    (Overnight.analyzeMarket c6xMarket (some 20) []).1.map
        Overnight.Signal.side = some Side.yes ∧
    (Overnight.analyzeMarket c6xMarket (some 20) []).1.map
        Overnight.Signal.edge = some (7 / 10) ∧
    (Overnight.analyzeMarket c6xMarket (some 20) []).1.map
        Overnight.Signal.fairProb = some (9 / 10) ∧
    |(9 / 10 : ℚ) - 1 / 2| < |(1 - (9 / 10 : ℚ)) - 4 / 5| ∧
    (7 / 10 : ℚ) ≠ (9 / 10 : ℚ) - 1 / 2 := by
  norm_num [Overnight.analyzeMarket, Overnight.fairDraw, Overnight.signalOf,
    Overnight.isCryptoO, hasAny, Overnight.cryptoKeywords,
    Overnight.upKeywords, Overnight.downKeywords, Overnight.MIN_EDGE,
    List.contains, List.any, kwBitcoin, kwBtc, kwUp, kwEthereum, kwEth,
    kwSolana, kwSol, kwCrypto, kwAbove, kwRise, c6xMarket,
    abs_eq_max_neg, min_def, max_def]

namespace CryptoLive

/-- Source constant `INITIAL_CAPITAL`. -/
def INITIAL_CAPITAL : ℚ := 100

/-- The initial trader state built in `__init__`: the configured capital, no
trades, an empty `traded_markets` set, and a fresh admission window opened
at start time `t0`. -/
def initState (t0 : ℚ) : CState := ⟨INITIAL_CAPITAL, [], [], ⟨none, 0, t0⟩⟩

/-- The crypto-series collection never returns an already-traded market. -/
theorem collectCrypto_not_traded :
    ∀ (ms : List CMarket) (b : BData) (traded : List ℕ) (l : List COpp),
      collectCrypto b traded ms = some l → ∀ o ∈ l, o.marketId ∉ traded := by
  intro ms
  induction ms with
  | nil =>
    intro b traded l h o ho
    rw [collectCrypto] at h
    injection h with h
    subst h
    cases ho
  | cons m rest ih =>
    intro b traded l h o ho
    rw [collectCrypto] at h
    by_cases hm : m.id ∈ traded
    · rw [if_pos hm] at h
      exact ih b traded l h o ho
    · rw [if_neg hm] at h
      rcases hc : calcCryptoEdge m b with _ | eq2
      · rw [hc] at h
        cases h
      · rw [hc] at h
        rcases eq2 with _ | e
        · dsimp only at h
          exact ih b traded l h o ho
        · dsimp only at h
          rcases hrest : collectCrypto b traded rest with _ | rl
          · rw [hrest] at h
            cases h
          · rw [hrest] at h
            dsimp only at h
            injection h with h
            subst h
            rcases List.mem_cons.1 ho with ho | ho
            · rw [ho]
              simpa using hm
            · exact ih b traded rl hrest o ho

/-- The general-market collection never returns an already-traded market. -/
theorem collectGeneral_not_traded :
    ∀ (ms : List CMarket) (traded : List ℕ) (r : Rng) (l : List COpp)
      (r2 : Rng),
      collectGeneral traded ms r = (some l, r2) →
      ∀ o ∈ l, o.marketId ∉ traded := by
  intro ms
  induction ms with
  | nil =>
    intro traded r l r2 h o ho
    rw [collectGeneral] at h
    injection h with h1 h2
    injection h1 with h1
    subst h1
    cases ho
  | cons m rest ih =>
    intro traded r l r2 h o ho
    rw [collectGeneral] at h
    by_cases hm : m.id ∈ traded
    · rw [if_pos hm] at h
      exact ih traded r l r2 h o ho
    · rw [if_neg hm] at h
      rcases hc : calcGeneralEdge m r with ⟨eq2, r1⟩
      rw [hc] at h
      rcases eq2 with _ | e2
      · dsimp only at h
        exact absurd (congrArg Prod.fst h) (by simp)
      · rcases e2 with _ | e
        · dsimp only at h
          exact ih traded r1 l r2 h o ho
        · dsimp only at h
          rcases hrest : collectGeneral traded rest r1 with ⟨rq, r3⟩
          rw [hrest] at h
          rcases rq with _ | rl
          · exact absurd (congrArg Prod.fst h) (by simp)
          · dsimp only at h
            have h1 := congrArg Prod.fst h
            dsimp at h1
            injection h1 with h1
            subst h1
            rcases List.mem_cons.1 ho with ho | ho
            · rw [ho]
              simpa using hm
            · exact ih traded r1 rl r3 hrest o ho

/-- Selector `find_best_opportunity` never selects an already-traded market. -/
theorem findBest_not_traded (b : BData) (traded : List ℕ)
    (cms gms : List CMarket) (r r2 : Rng) (opp : COpp)
    (h : findBest b traded cms gms r = (some (some opp), r2)) :
    opp.marketId ∉ traded := by
  rw [findBest] at h
  rcases hc : collectCrypto b traded cms with _ | cos
  · rw [hc] at h
    exact absurd (congrArg Prod.fst h) (by simp)
  · rw [hc] at h
    dsimp only at h
    rcases hg : collectGeneral traded gms r with ⟨gq, r1⟩
    rw [hg] at h
    rcases gq with _ | gos
    · exact absurd (congrArg Prod.fst h) (by simp)
    · dsimp only at h
      have h1 := congrArg Prod.fst h
      dsimp at h1
      injection h1 with h1
      have hmem := pickMaxBy_mem cOppKey (cos ++ gos) opp h1
      rcases List.mem_append.1 hmem with hm | hm
      · exact collectCrypto_not_traded cms b traded cos hc opp hm
      · exact collectGeneral_not_traded gms traded r gos r1 hg opp hm

/-- Everything `execute_trade` can do to the history and the traded set:
nothing, or record one trade while adding exactly the executed market id. -/
theorem cExecute_spec (s : CState) (opp : COpp) (now : ℚ) (r : Rng) :
    ((cExecute s opp now r).1.trades = s.trades ∧
     (cExecute s opp now r).1.tradedMarkets = s.tradedMarkets ∧
     (cExecute s opp now r).2.1 = none) ∨
    ((cExecute s opp now r).1.tradedMarkets = opp.marketId :: s.tradedMarkets ∧
     ∃ t, (cExecute s opp now r).2.1 = some t ∧
       (cExecute s opp now r).1.trades = s.trades ++ [t]) := by
  unfold cExecute
  rcases hc : Admission.admitCheck 10 30 s.admState now with ⟨a1, ok⟩
  cases ok
  · exact Or.inl ⟨rfl, rfl, rfl⟩
  · dsimp only
    rcases hd : draw r with ⟨d, r1⟩
    dsimp only
    by_cases h3 : d < 1 / 2 + opp.edge * (8 / 10) ∧ opp.marketPrice = 0
    · rw [if_pos h3]
      exact Or.inl ⟨rfl, rfl, rfl⟩
    · rw [if_neg h3]
      exact Or.inr ⟨rfl, _, rfl, rfl⟩

/-- A scan leaves the traded set unchanged and reports nothing, or reports
one not-yet-traded market id and adds exactly it to the traded set. -/
theorem cScanStep_spec (s : CState) (inp : CScanIn) (r : Rng) :
    ((cScanStep s inp r).1.tradedMarkets = s.tradedMarkets ∧
     (cScanStep s inp r).2.1 = none) ∨
    ∃ i, (cScanStep s inp r).2.1 = some i ∧ i ∉ s.tradedMarkets ∧
      (cScanStep s inp r).1.tradedMarkets = i :: s.tradedMarkets := by
  rw [cScanStep]
  rcases hb : inp.bdata with _ | b
  · exact Or.inl ⟨rfl, rfl⟩
  · dsimp only
    rcases hf : findBest b s.tradedMarkets inp.cryptoMarkets inp.generalMarkets r
      with ⟨fq, r1⟩
    rcases fq with _ | oq
    · exact Or.inl ⟨rfl, rfl⟩
    · rcases oq with _ | opp
      · exact Or.inl ⟨rfl, rfl⟩
      · dsimp only
        have hnt := findBest_not_traded b s.tradedMarkets inp.cryptoMarkets
          inp.generalMarkets r r1 opp hf
        have hspec := cExecute_spec s opp inp.time r1
        rcases hce : cExecute s opp inp.time r1 with ⟨s1, tq, r2⟩
        rw [hce] at hspec
        rcases tq with _ | t
        · dsimp only
          rcases hspec with ⟨_, htm, _⟩ | ⟨_, t2, hsome, _⟩
          · exact Or.inl ⟨htm, rfl⟩
          · cases hsome
        · dsimp only
          rcases hspec with ⟨_, _, hnone⟩ | ⟨htm, t2, hsome, _⟩
          · cases hnone
          · exact Or.inr ⟨opp.marketId, rfl, hnt, htm⟩

/-- Along a whole run, the reported traded ids are pairwise distinct and
none of them was in the traded set at the start. -/
theorem cRun_ids_spec (endT : ℚ) :
    ∀ (scans : List CScanIn) (s : CState) (r : Rng),
      ((cRun endT s r scans).2.1).Nodup ∧
      ∀ i ∈ (cRun endT s r scans).2.1, i ∉ s.tradedMarkets := by
  intro scans
  induction scans with
  | nil =>
    intro s r
    constructor
    · exact List.nodup_nil
    · intro i hi
      cases hi
  | cons inp rest ih =>
    intro s r
    rw [cRun]
    by_cases htime : inp.time < endT
    · rw [if_pos htime]
      have hstep := cScanStep_spec s inp r
      rcases hb : cScanStep s inp r with ⟨s1, oid, r1⟩
      rw [hb] at hstep
      dsimp only
      rcases hr : cRun endT s1 r1 rest with ⟨s2, ids, r2⟩
      have hrec := ih s1 r1
      rw [hr] at hrec
      dsimp only
      rcases hstep with ⟨htm, hnone⟩ | ⟨i, hsome, hni, htm⟩
      · dsimp only at hnone
        rw [hnone]
        simp only [Option.toList_none, List.nil_append]
        exact ⟨hrec.1, fun j hj => htm ▸ hrec.2 j hj⟩
      · dsimp only at hsome
        rw [hsome]
        simp only [Option.toList_some, List.singleton_append]
        constructor
        · rw [List.nodup_cons]
          refine ⟨fun hmem => ?_, hrec.1⟩
          have := hrec.2 i hmem
          rw [htm] at this
          exact this (by simp)
        · intro j hj
          rcases List.mem_cons.1 hj with hj | hj
          · rw [hj]
            exact hni
          · have := hrec.2 j hj
            rw [htm] at this
            intro hjs
            exact this (List.mem_cons_of_mem i hjs)
    · rw [if_neg htime]
      constructor
      · exact List.nodup_nil
      · intro i hi
        cases hi

end CryptoLive

/-- C7, amended.  `crypto_live_trading` (like `paper_trading_real_api`)
keeps a `traded_markets` set: the selector skips any market already in it,
execution adds the executed market id, and hence the ids of the markets
traded in a whole run are pairwise distinct.  `simple_live_trading` keeps no
such set and can trade the same market repeatedly (see the
counterexample). -/
theorem c7_at_most_once :
    (∀ (endT t0 : ℚ) (r : Rng) (scans : List CryptoLive.CScanIn),
        ((CryptoLive.cRun endT (CryptoLive.initState t0) r scans).2.1).Nodup) ∧
    (∀ (b : CryptoLive.BData) (traded : List ℕ)
        (cms gms : List CryptoLive.CMarket) (r r2 : Rng)
        (opp : CryptoLive.COpp),
        CryptoLive.findBest b traded cms gms r = (some (some opp), r2) →
        opp.marketId ∉ traded) ∧
    (∀ (s : CryptoLive.CState) (opp : CryptoLive.COpp) (now : ℚ) (r : Rng)
        (t : CryptoLive.CTrade),
        (CryptoLive.cExecute s opp now r).2.1 = some t →
        (CryptoLive.cExecute s opp now r).1.tradedMarkets =
          opp.marketId :: s.tradedMarkets ∧
        (CryptoLive.cExecute s opp now r).1.trades = s.trades ++ [t]) := by
  refine ⟨?_, ?_, ?_⟩
  · intro endT t0 r scans
    exact (CryptoLive.cRun_ids_spec endT scans (CryptoLive.initState t0) r).1
  · intro b traded cms gms r r2 opp h
    exact CryptoLive.findBest_not_traded b traded cms gms r r2 opp h
  · intro s opp now r t ht
    rcases CryptoLive.cExecute_spec s opp now r with ⟨_, _, hnone⟩ |
      ⟨htm, t2, hsome, htr⟩
    · rw [hnone] at ht
      cases ht
    · rw [hsome] at ht
      injection ht with ht
      subst ht
      exact ⟨htm, htr⟩

/-- The opportunity and trade used to instantiate C7. -/
def c7wOpp : CryptoLive.COpp :=
  ⟨11, [], true, 2, Side.yes, 1 / 10, 1 / 2, 1 / 2⟩

def c7wTrade : CryptoLive.CTrade :=
  ⟨[], Side.yes, 1 / 10, 10, 10, true, 110, true⟩

/-- Closed instance of the C7 theorem: executing a concrete trade adds
exactly its market id to the traded set. -/
theorem c7_witness :
    (CryptoLive.cExecute (CryptoLive.initState 0) c7wOpp 0 [0]).1.tradedMarkets =
      c7wOpp.marketId :: (CryptoLive.initState 0).tradedMarkets :=
  (c7_at_most_once.2.2 (CryptoLive.initState 0) c7wOpp 0 [0] c7wTrade
    (by norm_num [CryptoLive.cExecute, CryptoLive.initState,
      CryptoLive.INITIAL_CAPITAL, Admission.admitCheck, Admission.admitAccept,
      kellySize, draw, round2, round4, round_eq, c7wOpp, c7wTrade,
      min_def, max_def])).1

/-- Counterexample to C7 as stated: the two-trade `simple_live_trading` run
of `c1sScans` executes market 7 twice — its trade history holds the same
market id twice, since this script has no `traded_markets` set. -/
theorem c7_counterexample :
    (SimpleLive.sRun 1000 (SimpleLive.initState 0) [0, 1] c1sScans).2.1 =
      [7, 7] ∧
    ¬ ((SimpleLive.sRun 1000 (SimpleLive.initState 0) [0, 1]
        c1sScans).2.1).Nodup := by
  have h : (SimpleLive.sRun 1000 (SimpleLive.initState 0) [0, 1]
      c1sScans).2.1 = [7, 7] := by
    norm_num [SimpleLive.initState, SimpleLive.sRun, SimpleLive.sScanStep,
      SimpleLive.findOpportunity, SimpleLive.sOpportunities,
      SimpleLive.analyzeOne, SimpleLive.sFairDraw, SimpleLive.sOppOf,
      SimpleLive.isCryptoS, SimpleLive.sExecute, SimpleLive.oppKey,
      SimpleLive.MIN_EDGE, SimpleLive.MAX_TRADES_PER_HOUR,
      SimpleLive.INITIAL_CAPITAL, pickMaxBy, kellySize, draw,
      Admission.admitCheck, Admission.admitAccept, hasAny, List.contains,
      List.any, SimpleLive.cryptoKeywordsS, SimpleLive.upKeywordsS, c1sScans,
      c1sMarket, kwBitcoin, kwBtc, kwCrypto, kwEth, kwUp, kwAbove, kwHit,
      round2, round4, round_eq, min_def, max_def, abs_eq_max_neg,
      Int.floor_eq_iff]
  refine ⟨h, ?_⟩
  rw [h]
  simp

namespace Overnight

/-- A market record with missing or unparseable price fields, as
`analyze_market` sees it: too few outcomes, too few prices, or an
unparseable entry among the first two prices. -/
def OMalformed (m : OMarket) : Prop :=
  m.outcomesLen < 2 ∨ m.outcomePrices.length < 2 ∨
  (∃ tl, m.outcomePrices = none :: tl) ∨
  (∃ y tl, m.outcomePrices = some y :: none :: tl)

/-- A malformed record is dropped by `analyze_market` with no seed
consumed. -/
theorem analyzeMarket_malformed (m : OMarket) (kl : Option ℚ) (r : Rng)
    (h : OMalformed m) : analyzeMarket m kl r = (none, r) := by
  unfold analyzeMarket
  split
  · rfl
  · split
    · rfl
    · rename_i h1 h2
      rcases h with h | h | ⟨tl, hp⟩ | ⟨y, tl, hp⟩
      · exact absurd (Or.inl h) h2
      · exact absurd (Or.inr h) h2
      · rw [hp]
      · rw [hp]

/-- Dropping one malformed record leaves the collected signals of the whole
batch — and the remaining seed — unchanged. -/
theorem oSignals_drop :
    ∀ (l1 : List OMarket) (bad : OMarket) (l2 : List OMarket)
      (kl : Option ℚ) (r : Rng), OMalformed bad →
      oSignals kl (l1 ++ bad :: l2) r = oSignals kl (l1 ++ l2) r := by
  intro l1
  induction l1 with
  | nil =>
    intro bad l2 kl r h
    simp only [List.nil_append]
    rw [oSignals, analyzeMarket_malformed bad kl r h]
  | cons m rest ih =>
    intro bad l2 kl r h
    simp only [List.cons_append]
    rw [oSignals, oSignals]
    rcases ha : analyzeMarket m kl r with ⟨sq, r1⟩
    rcases sq with _ | s0
    · dsimp only
      exact ih bad l2 kl r1 h
    · dsimp only
      rw [ih bad l2 kl r1 h]

end Overnight

namespace SimpleLive

/-- A market record with missing or unparseable price fields, as
`find_opportunity` sees it: the price field fails to json-parse, has fewer
than two entries, or an unparseable entry among the first two. -/
def SMalformed (m : SMarket) : Prop :=
  m.outcomePricesRaw = none ∨
  (∃ l, m.outcomePricesRaw = some l ∧ l.length < 2) ∨
  (∃ tl, m.outcomePricesRaw = some (none :: tl)) ∨
  (∃ y tl, m.outcomePricesRaw = some (some y :: none :: tl))

/-- A malformed record is dropped by the per-market analysis with no seed
consumed. -/
theorem analyzeOne_malformed (btc : ℚ) (m : SMarket) (r : Rng)
    (h : SMalformed m) : analyzeOne btc m r = (none, r) := by
  unfold analyzeOne
  rcases h with h | ⟨l, hp, hl⟩ | ⟨tl, hp⟩ | ⟨y, tl, hp⟩
  · rw [h]
  · rw [hp]
    dsimp only
    rw [if_pos (Or.inl hl)]
  · rw [hp]
    dsimp only
    split
    · rfl
    · rfl
  · rw [hp]
    dsimp only
    split
    · rfl
    · rfl

/-- Dropping one malformed record leaves the collected opportunities of the
whole batch — and the remaining seed — unchanged. -/
theorem sOpportunities_drop :
    ∀ (l1 : List SMarket) (bad : SMarket) (l2 : List SMarket) (btc : ℚ)
      (r : Rng), SMalformed bad →
      sOpportunities btc (l1 ++ bad :: l2) r = sOpportunities btc (l1 ++ l2) r := by
  intro l1
  induction l1 with
  | nil =>
    intro bad l2 btc r h
    simp only [List.nil_append]
    rw [sOpportunities, analyzeOne_malformed btc bad r h]
  | cons m rest ih =>
    intro bad l2 btc r h
    simp only [List.cons_append]
    rw [sOpportunities, sOpportunities]
    rcases ha : analyzeOne btc m r with ⟨oq, r1⟩
    rcases oq with _ | o0
    · dsimp only
      exact ih bad l2 btc r1 h
    · dsimp only
      rw [ih bad l2 btc r1 h]

end SimpleLive

/-- C8: a record with missing or unparseable price fields is dropped
individually — in both engines, analyzing a batch with such a record
inserted anywhere yields exactly the signals of the batch without it, with
the same remaining seed, so every sibling record is still processed. -/
theorem c8_malformed_tolerance :
    (∀ (l1 l2 : List Overnight.OMarket) (bad : Overnight.OMarket)
        (kl : Option ℚ) (r : Rng), Overnight.OMalformed bad →
        Overnight.oSignals kl (l1 ++ bad :: l2) r =
          Overnight.oSignals kl (l1 ++ l2) r) ∧
    (∀ (l1 l2 : List SimpleLive.SMarket) (bad : SimpleLive.SMarket)
        (btc : ℚ) (r : Rng), SimpleLive.SMalformed bad →
        SimpleLive.sOpportunities btc (l1 ++ bad :: l2) r =
          SimpleLive.sOpportunities btc (l1 ++ l2) r) :=
  ⟨fun l1 l2 bad kl r h => Overnight.oSignals_drop l1 bad l2 kl r h,
   fun l1 l2 bad btc r h => SimpleLive.sOpportunities_drop l1 bad l2 btc r h⟩

/-- Malformed records used to instantiate C8. -/
def c8badO : Overnight.OMarket := ⟨2, [], [], 20000, 2, [none, some (1 / 2)]⟩

def c8badS : SimpleLive.SMarket := ⟨6, [], 20000, none⟩

/-- Closed instance of the C8 theorem: dropping the malformed record leaves
the batch results unchanged. -/
theorem c8_witness :
    Overnight.oSignals (some 20) [c1oMarket, c8badO] [] =
      Overnight.oSignals (some 20) [c1oMarket] [] ∧
    SimpleLive.sOpportunities 30 [c8badS] [] =
      SimpleLive.sOpportunities 30 [] [] :=
  ⟨c8_malformed_tolerance.1 [c1oMarket] [] c8badO (some 20) []
     (Or.inr (Or.inr (Or.inl ⟨[some (1 / 2)], rfl⟩))),
   c8_malformed_tolerance.2 [] [] c8badS 30 [] (Or.inl rfl)⟩

/-- C2, amended.  The sizers apply the minimum-size floor after the
percentage ceiling, so the floor wins: the size is always at least the
minimum trade size, and it is below `capital * maxPositionPct` exactly when
that ceiling is already at least the floor.  `paper_trading_real_api`
additionally rejects any trade whose size exceeds the capital;
`simple_live_trading` has no such check. -/
theorem c2_position_bounds :
    (∀ capital edge : ℚ, 5 ≤ PaperAPI.position capital edge) ∧
    (∀ capital edge : ℚ, 5 ≤ capital * (15 / 100) →
        PaperAPI.position capital edge ≤ capital * (15 / 100)) ∧
    (∀ capital edge p : ℚ, PaperAPI.sizedPosition capital edge = some p →
        p ≤ capital ∧ p = PaperAPI.position capital edge) ∧
    (∀ capital edge : ℚ, 1 ≤ kellySize capital edge) ∧
    (∀ capital edge : ℚ, 1 ≤ capital * (1 / 10) →
        kellySize capital edge ≤ capital * (1 / 10)) := by
  refine ⟨?_, ?_, ?_, ?_, ?_⟩
  · intro capital edge
    exact le_max_left 5 _
  · intro capital edge h
    exact max_le h (min_le_right _ _)
  · intro capital edge p h
    unfold PaperAPI.sizedPosition at h
    by_cases hc : PaperAPI.position capital edge > capital
    · rw [if_pos hc] at h
      cases h
    · rw [if_neg hc] at h
      injection h with h
      rw [← h]
      exact ⟨le_of_not_gt hc, rfl⟩
  · intro capital edge
    exact le_max_right _ 1
  · intro capital edge h
    exact max_le (min_le_right _ _) h

/-- Closed instance of the C2 theorem at capital 100, edge 3 percent. -/
theorem c2_witness :
    5 ≤ PaperAPI.position 100 (3 / 100) ∧
    PaperAPI.position 100 (3 / 100) ≤ 100 * (15 / 100) ∧
    kellySize 100 (3 / 100) ≤ 100 * (1 / 10) :=
  ⟨c2_position_bounds.1 100 (3 / 100),
   c2_position_bounds.2.1 100 (3 / 100) (by norm_num),
   c2_position_bounds.2.2.2.2 100 (3 / 100) (by norm_num)⟩

/-- Counterexample to C2 as stated: at capital 20 and accepted edge `0.03`
(the configured minimum), the paper-API sizer returns 5, which exceeds
`capital * maxPositionPct = 3`, and the trade is still executed since
`5 ≤ 20`. -/
theorem c2_counterexample :
    PaperAPI.position 20 (3 / 100) = 5 ∧
    ¬ PaperAPI.position 20 (3 / 100) ≤ 20 * (15 / 100) ∧
    PaperAPI.sizedPosition 20 (3 / 100) = some 5 ∧
    PaperAPI.MIN_EDGE ≤ 3 / 100 := by
  norm_num [PaperAPI.position, PaperAPI.sizedPosition, PaperAPI.MIN_EDGE,
    min_def, max_def]

/-- C9: a run is a pure function of the seed stream and the per-scan feed
inputs, so replaying the same seeded randomness on the same input sequence
reproduces the identical final state — in particular the identical trade
history and final capital — in both the overnight and the simple live
engines. -/
theorem c9_replay_determinism (endT t0 : ℚ) (r1 r2 : Rng)
    (os1 os2 : List Overnight.OScanIn) (ss1 ss2 : List SimpleLive.SScanIn)
    (hr : r1 = r2) (ho : os1 = os2) (hs : ss1 = ss2) :
    Overnight.oRun endT ⟨Overnight.INITIAL_CAPITAL, []⟩ r1 os1 =
      Overnight.oRun endT ⟨Overnight.INITIAL_CAPITAL, []⟩ r2 os2 ∧
    SimpleLive.sRun endT (SimpleLive.initState t0) r1 ss1 =
      SimpleLive.sRun endT (SimpleLive.initState t0) r2 ss2 := by
  subst hr
  subst ho
  subst hs
  exact ⟨rfl, rfl⟩

/-- Closed instance of the C9 theorem at a concrete seed and scan list. -/
theorem c9_witness :
    Overnight.oRun 1000 ⟨Overnight.INITIAL_CAPITAL, []⟩ [0] [c1oScan] =
      Overnight.oRun 1000 ⟨Overnight.INITIAL_CAPITAL, []⟩ [0] [c1oScan] ∧
    SimpleLive.sRun 1000 (SimpleLive.initState 0) [0] [] =
      SimpleLive.sRun 1000 (SimpleLive.initState 0) [0] [] :=
  c9_replay_determinism 1000 0 [0] [0] [c1oScan] [c1oScan] [] [] rfl rfl rfl

/-- C10: every trade the overnight engine actually executes has a position
of at most half the capital and a pnl no worse than losing the whole
position, so from positive initial capital the capital stays strictly
positive after every trade; and once the capital is under two dollars the
one-dollar minimum position always fails the half-capital safety check, so
no further trade is ever executed. -/
theorem c10_capital_positivity :
    (∀ (s : Overnight.OState) (sig : Overnight.Signal) (r : Rng)
        (t : Overnight.OTrade),
        (Overnight.executeTrade s sig r).trade = some t →
        t.positionValue ≤ s.capital * (1 / 2) ∧ -t.positionValue ≤ t.pnl ∧
        (Overnight.executeTrade s sig r).st.capital = s.capital + t.pnl) ∧
    (∀ (c0 endT : ℚ) (r : Rng) (scans : List Overnight.OScanIn), 0 < c0 →
        0 < (Overnight.oRun endT ⟨c0, []⟩ r scans).1.capital ∧
        ∀ t ∈ (Overnight.oRun endT ⟨c0, []⟩ r scans).1.trades,
          0 < t.capitalAfter) ∧
    (∀ (s : Overnight.OState) (sig : Overnight.Signal) (r : Rng),
        s.capital < 2 →
        (Overnight.executeTrade s sig r).st = s ∧
        (Overnight.executeTrade s sig r).trade = none) := by
  refine ⟨?_, ?_, ?_⟩
  · intro s sig r t ht
    rcases Overnight.executeTrade_spec s sig r with ⟨_, hnone⟩ |
      ⟨u, hu, _, hcap, _, _, hhalf, hlow, _⟩
    · rw [hnone] at ht
      cases ht
    · rw [hu] at ht
      injection ht with ht
      subst ht
      exact ⟨hhalf, hlow, hcap⟩
  · intro c0 endT r scans h0
    have := Overnight.oRun_pres Overnight.posInv Overnight.executeTrade_posInv
      endT scans ⟨c0, []⟩ r ⟨h0, by intro t ht; cases ht⟩
    exact ⟨this.1, this.2⟩
  · intro s sig r h
    exact Overnight.executeTrade_floor s sig r h

/-- The signal used to instantiate the C10 floor clause. -/
def c10Sig : Overnight.Signal :=
  ⟨1, Side.yes, 3 / 10, 1 / 2, 1 / 2, 20000, 9 / 10, true⟩

/-- Closed instance of the C10 theorem: positivity of a concrete run from
capital 100, and rejection at capital 1. -/
theorem c10_witness :
    0 < (Overnight.oRun 1000 ⟨100, []⟩ [0] [c1oScan]).1.capital ∧
    (Overnight.executeTrade ⟨1, []⟩ c10Sig []).st = ⟨1, []⟩ :=
  ⟨(c10_capital_positivity.2.1 100 1000 [0] [c1oScan] (by norm_num)).1,
   (c10_capital_positivity.2.2 ⟨1, []⟩ c10Sig [] (by norm_num)).1⟩

/-- C5, amended.  In `paper_trading_real_api` the loop guard checks
`capital > 10` at every scan boundary: once the capital is at or below the
floor the loop stops with no further scan-loop body execution, whatever the
body would do, and while the deadline and the floor both pass, the loop
always proceeds (those are the only exits).  `overnight_simulation` has no
capital-floor condition: its counterexample run keeps trading below the
floor. -/
theorem c5_capital_floor :
    (∀ (endT : ℚ) (body : PaperAPI.PState → ℚ → PaperAPI.PState)
        (s : PaperAPI.PState) (ts : List ℚ), s.capital ≤ 10 →
        PaperAPI.pLoop endT body s ts = s) ∧
    (∀ (endT : ℚ) (body : PaperAPI.PState → ℚ → PaperAPI.PState)
        (s : PaperAPI.PState) (t : ℚ) (ts : List ℚ),
        t < endT → s.capital > 10 →
        PaperAPI.pLoop endT body s (t :: ts) =
          PaperAPI.pLoop endT body (body s t) ts) := by
  constructor
  · intro endT body s ts h
    cases ts with
    | nil => rfl
    | cons t ts =>
      rw [PaperAPI.pLoop, if_neg]
      rintro ⟨-, h2⟩
      linarith
  · intro endT body s t ts ht hc
    rw [PaperAPI.pLoop, if_pos ⟨ht, hc⟩]

/-- Closed instance of the C5 theorem: a loop at the floor stops at once; a
loop above the floor proceeds into its body. -/
theorem c5_witness :
    PaperAPI.pLoop 1000 (fun s _ => s) ⟨10, 0⟩ [0, 1, 2] = ⟨10, 0⟩ ∧
    PaperAPI.pLoop 1000 (fun s _ => s) ⟨100, 0⟩ [0] =
      PaperAPI.pLoop 1000 (fun s _ => s) ⟨100, 0⟩ [] :=
  ⟨c5_capital_floor.1 1000 (fun s _ => s) ⟨10, 0⟩ [0, 1, 2] (by norm_num),
   c5_capital_floor.2 1000 (fun s _ => s) ⟨100, 0⟩ 0 [] (by norm_num)
     (by norm_num)⟩

set_option maxRecDepth 100000
set_option maxHeartbeats 4000000

/-- Counterexample to C5 as stated: a 91-scan overnight run from the
configured initial capital of 100 loses one dollar per scan; its 90th trade
closes at exactly the 10-dollar floor, yet the 91st scan still executes a
trade (91 trades in all) and the run ends at capital 9 — the overnight scan
loop never checks the capital floor. -/
theorem c5_counterexample :
    ((Overnight.oRun 1000 ⟨Overnight.INITIAL_CAPITAL, []⟩
        (List.replicate 91 1) (List.replicate 91 c1oScan)).1.trades.get? 89).map
        Overnight.OTrade.capitalAfter = some 10 ∧
    (Overnight.oRun 1000 ⟨Overnight.INITIAL_CAPITAL, []⟩
        (List.replicate 91 1) (List.replicate 91 c1oScan)).1.trades.length = 91 ∧
    (Overnight.oRun 1000 ⟨Overnight.INITIAL_CAPITAL, []⟩
        (List.replicate 91 1) (List.replicate 91 c1oScan)).1.capital = 9 := by
  norm_num [Overnight.INITIAL_CAPITAL, Overnight.oRun, Overnight.oScanBody,
    Overnight.oSignals, Overnight.analyzeMarket, Overnight.fairDraw,
    Overnight.signalOf, Overnight.isCryptoO, Overnight.sortSignals,
    Overnight.oExecList, Overnight.executeTrade, Overnight.MIN_EDGE,
    Overnight.MIN_CONFIDENCE, Overnight.KELLY_FRACTION,
    Overnight.MAX_POSITION_PCT, c1oScan, c1oMarket,
    Overnight.cryptoKeywords, Overnight.upKeywords, Overnight.downKeywords,
    hasAny, List.contains, List.any, kwBitcoin, kwBtc, kwUp, kwEthereum,
    kwEth, kwSolana, kwSol, kwCrypto, kwAbove, kwRise, kwDown, kwBelow,
    kwFall, draw, abs_eq_max_neg, min_def, max_def, List.replicate]
